import Mathlib

/-!
Verification of the core parsing and reflow engine of a SQL linting tool.

The development shallowly embeds the relevant parts of the source:
* `MatchResult2` and its `apply`, `empty_at`, `is_better_than` methods
  (src/src/sqlfluff/core/parser/match_result.py),
* `check_still_complete` (src/src/sqlfluff/parser/segments_base.py),
* the reindent engine (src/src/sqlfluff/utils/reflow/reindent.py).

The grammar combinators (OneOf, Delimited) and the reflow elements module are
not part of the source tree here; where a claim depends on them they are
modelled from the specification, and each such definition is marked
"Modelled from the spec" in its doc comment.
-/

namespace SF

/-- A realized segment. A leaf (`raw`) carries its raw text; a `meta` segment is a
zero-width marker (its raw text is empty); a `node` is a composite segment whose
raw text is the concatenation of its children. Position markers are not
modelled: no claim in this development depends on them. -/
inductive Segment where
  | raw (text : String)
  | meta (cls : Nat)
  | node (cls : Nat) (children : List Segment)
deriving Repr, Inhabited

mutual

/-- The raw text of a segment. -/
def Segment.rawText : Segment → String
  | .raw t => t
  | .meta _ => ""
  | .node _ children => Segment.rawTextList children

/-- The concatenated raw text of a list of segments. -/
def Segment.rawTextList : List Segment → String
  | [] => ""
  | s :: rest => Segment.rawText s ++ Segment.rawTextList rest

end

/-- Modelled from the spec: the helper `join_segments_raw` (its module is not under
src/) produces the "concatenation of the raw text" of a sequence of segments. -/
def join_segments_raw (segments : List Segment) : String :=
  Segment.rawTextList segments

/-- Embedding of `check_still_complete`
(src/src/sqlfluff/parser/segments_base.py, lines 99-108). Raising the
`RuntimeError` is modelled as returning `Except.error`. -/
def check_still_complete (segments_in matched_segments unmatched_segments : List Segment) :
    Except String Unit :=
  let initial_str := join_segments_raw segments_in
  let current_str := join_segments_raw (matched_segments ++ unmatched_segments)
  if initial_str ≠ current_str then
    Except.error "Dropped elements in sequence matching!"
  else
    Except.ok ()

/-- The class of segment a match result should create once realized. The flag
records the result of `class_is_type("raw")` for that class. -/
structure SegClass where
  isRawClass : Bool
  cls : Nat
deriving Repr, DecidableEq

/-- Embedding of the `MatchResult2` dataclass
(src/src/sqlfluff/core/parser/match_result.py, lines 108-147).
`matched_slice` is represented by the pair `start`/`stop`; `insert_segments`
is the list of `(index, meta segment class)` pairs; `segment_kwargs` is not
modelled (it never affects raw text). -/
inductive MatchResult2 where
  | mk (start stop : Nat)
       (matched_class : Option SegClass)
       (insert_segments : List (Nat × Nat))
       (child_matches : List MatchResult2)
       (is_clean : Bool)
deriving Repr, Inhabited

def MatchResult2.start : MatchResult2 → Nat
  | .mk s _ _ _ _ _ => s

def MatchResult2.stop : MatchResult2 → Nat
  | .mk _ t _ _ _ _ => t

def MatchResult2.matched_class : MatchResult2 → Option SegClass
  | .mk _ _ c _ _ _ => c

def MatchResult2.insert_segments : MatchResult2 → List (Nat × Nat)
  | .mk _ _ _ i _ _ => i

def MatchResult2.child_matches : MatchResult2 → List MatchResult2
  | .mk _ _ _ _ ch _ => ch

def MatchResult2.is_clean : MatchResult2 → Bool
  | .mk _ _ _ _ _ c => c

/-- Modelled from the spec: `slice_length` of the half-open slice `[start, stop)`
(the helper module is not under src/). Natural subtraction truncates at zero,
matching a well-formed slice. -/
def MatchResult2.length (m : MatchResult2) : Nat := m.stop - m.start

/-- Embedding of `MatchResult2.empty_at`
(src/src/sqlfluff/core/parser/match_result.py, lines 162-168):
"Create an empty match at a particular index. An empty match is by
definition, unclean." -/
def MatchResult2.empty_at (idx : Nat) : MatchResult2 :=
  .mk idx idx none [] [] false

/-- Embedding of `MatchResult2.is_better_than`
(src/src/sqlfluff/core/parser/match_result.py, lines 170-174):
"A match is better compared on length and cleanliness." -/
def MatchResult2.is_better_than (self other : MatchResult2) : Bool :=
  if self.is_clean && !other.is_clean then true
  else decide (other.length < self.length)

/-- Modelled from the spec: `OneOf` "tries every viable alternative (after
`simple()` pruning) at the same start index and keeps the longest successful
match; ties broken by declaration order (first-listed alternative wins)".
Each alternative is represented by the `MatchResult2` it produced at the start
index; the fold keeps the incumbent unless a later alternative
`is_better_than` it (the comparison embedded above from the source), starting
from the empty (unclean) match at the start index. The OneOf grammar class
itself is not under src/. -/
def oneOfStep (best m : MatchResult2) : MatchResult2 :=
  if m.is_better_than best then m else best

def oneOfMatch (alternatives : List MatchResult2) (idx : Nat) : MatchResult2 :=
  alternatives.foldl oneOfStep (MatchResult2.empty_at idx)

/-- The alternatives used in the C2 witness: the second is the longest clean one. -/
def oneofWitnessAlts : List MatchResult2 :=
  [MatchResult2.mk 0 2 none [] [] true,
   MatchResult2.mk 0 3 none [] [] true,
   MatchResult2.empty_at 0]

/-- The half-open slice `l[a:b]` of a list (python slicing for `a ≤ b`). -/
def listSlice {α : Type _} (l : List α) (a b : Nat) : List α :=
  (l.drop a).take (b - a)

/-- Work through the child matches registered at one trigger location: each
child contributes its applied segments and advances `max_idx` to its
`matched_slice.stop` (match_result.py, lines 288-294). -/
def applyKids : List (Nat × Nat × Option (List Segment)) → Nat → Option (List Segment × Nat)
  | [], maxIdx => some ([], maxIdx)
  | (_, kstop, res) :: rest, _ =>
    Option.bind res (fun segs =>
      Option.bind (applyKids rest kstop) (fun p => some (segs ++ p.1, p.2)))

/-- Work through the sorted trigger locations (match_result.py, lines 276-308):
untouched segments up to the next location are copied over unchanged, a
location behind `max_idx` is the "SKIP AHEAD ERROR", inserts at the location
become zero-width meta segments, and child matches contribute their own
application. After the last location any remainder up to `stop` is added. -/
def applyTriggers (segments : List Segment) (inserts : List (Nat × Nat))
    (childResults : List (Nat × Nat × Option (List Segment))) :
    List Nat → Nat → Nat → Option (List Segment)
  | [], maxIdx, stop =>
    some (if maxIdx < stop then listSlice segments maxIdx stop else [])
  | key :: rest, maxIdx, stop =>
    if key < maxIdx then none
    else
      Option.bind (applyKids (childResults.filter (fun c => c.1 = key)) key)
        (fun kids =>
          Option.bind (applyTriggers segments inserts childResults rest kids.2 stop)
            (fun tail =>
              some (listSlice segments maxIdx key ++
                (inserts.filter (fun p => p.1 = key)).map (fun p => Segment.meta p.2) ++
                kids.1 ++ tail)))

/-- The sorted trigger locations, `sorted(trigger_locs.keys())`: the distinct
insert positions and child match start positions, ascending. -/
def triggerKeys (inserts : List (Nat × Nat)) (children : List MatchResult2) : List Nat :=
  List.insertionSort (· ≤ ·)
    ((inserts.map Prod.fst ++ children.map MatchResult2.start).dedup)

mutual

/-- Embedding of `MatchResult2.apply` (match_result.py, lines 246-327).
Assertion failures and the "SKIP AHEAD" `ValueError` are modelled as `none`.
`segment_kwargs` and the position markers of freshly created meta segments are
not modelled (they carry no raw text). The applications of the child matches
are computed up front by `applyChildren`; `applyTriggers` then works through
the sorted trigger locations exactly as the source loop does. -/
def MatchResult2.apply : MatchResult2 → List Segment → Option (List Segment)
  | .mk start stop mclass inserts children _, segments =>
    if stop ≤ start then none
    else if segments.length < stop then none
    else
      Option.bind
        (applyTriggers segments inserts (MatchResult2.applyChildren children segments)
          (triggerKeys inserts children) start stop)
        (fun result =>
          match mclass with
          | none => some result
          | some c =>
            if c.isRawClass then
              match result with
              | [r] => some [Segment.raw r.rawText]
              | _ => none
            else
              some [Segment.node c.cls result])

/-- The application of each child match, tagged with the child's slice. -/
def MatchResult2.applyChildren :
    List MatchResult2 → List Segment → List (Nat × Nat × Option (List Segment))
  | [], _ => []
  | c :: rest, segments =>
    (c.start, c.stop, MatchResult2.apply c segments) ::
      MatchResult2.applyChildren rest segments

end

/-- The child matches chain inside `[lo, hi]` without overlapping: each child
slice starts no earlier than `lo` (respectively the previous child's stop) and
ends by `hi`. -/
def childrenChain (lo hi : Nat) : List MatchResult2 → Bool
  | [] => true
  | c :: rest =>
    decide (lo ≤ c.start) && decide (c.stop ≤ hi) && childrenChain c.stop hi rest

mutual

/-- Well-formedness of a match result — the amended hypothesis of C1: a
positive slice length at every level; insert positions within the slice and
never strictly inside a child slice; child slices nesting inside the match
without overlapping; and a raw matched class only wrapping a single-segment
slice with no inserts or children. -/
def MatchResult2.wf : MatchResult2 → Bool
  | .mk start stop mclass inserts children _ =>
    decide (start < stop) &&
    inserts.all (fun p => decide (start ≤ p.1) && decide (p.1 ≤ stop)) &&
    inserts.all (fun p =>
      children.all (fun c => decide (p.1 ≤ c.start) || decide (c.stop ≤ p.1))) &&
    childrenChain start stop children &&
    (match mclass with
     | some c =>
       !c.isRawClass || (decide (stop = start + 1) && inserts.isEmpty && children.isEmpty)
     | none => true) &&
    MatchResult2.wfList children

def MatchResult2.wfList : List MatchResult2 → Bool
  | [] => true
  | c :: rest => MatchResult2.wf c && MatchResult2.wfList rest

end

/-- The match result used in the C1 witness: a node-class match over `[0, 3)`
with a meta insert at position 0 and a raw-class child covering `[1, 2)`. -/
def c1WitnessMatch : MatchResult2 :=
  .mk 0 3 (some ⟨false, 7⟩) [(0, 9)] [.mk 1 2 (some ⟨true, 5⟩) [] [] true] true

def c1WitnessSegments : List Segment := [.raw "a", .raw "b", .raw "c"]

/-- A lexed token for the modelled Delimited combinator: raw text plus whether
it is code (whitespace is not code). -/
structure Token where
  text : String
  isCode : Bool
deriving Repr, DecidableEq

/-- Modelled from the spec: a keyword matcher recognises exactly one code token
whose raw text equals the keyword. -/
def kwMatchAt (tokens : List Token) (kw : String) (i : Nat) : Bool :=
  match tokens.get? i with
  | some t => t.isCode && t.text == kw
  | none => false

/-- Position of the next code token at or after `i` (gap skipping); the end of
the remaining tokens when there is none. -/
def skipGaps (tokens : List Token) (i : Nat) : Nat :=
  match (tokens.drop i).findIdx? (fun t => t.isCode) with
  | some j => i + j
  | none => i + (tokens.drop i).length

/-- The position after optionally skipping a gap, depending on `allow_gaps`. -/
def gapTo (tokens : List Token) (allow_gaps : Bool) (i : Nat) : Nat :=
  if allow_gaps then skipGaps tokens i else i

/-- Modelled from the spec: the loop of `Delimited` after a leading element has
matched — repeatedly, optionally skip a gap, take a delimiter, optionally skip
a gap and take the next element; "optionally followed by a trailing delimiter":
a delimiter with no element after it is kept when `allow_trailing` and
otherwise fails the whole match. Returns the end position of the match and the
number of delimiters found. The Delimited grammar class is not under src/. -/
def delimitedLoop (tokens : List Token) (elemKw delimKw : String)
    (allow_gaps allow_trailing : Bool) : Nat → Nat → Option (Nat × Nat)
  | i, count =>
    let q := gapTo tokens allow_gaps i
    if hq : kwMatchAt tokens delimKw q = true then
      let r := gapTo tokens allow_gaps (q + 1)
      if hr : kwMatchAt tokens elemKw r = true then
        delimitedLoop tokens elemKw delimKw allow_gaps allow_trailing (r + 1) (count + 1)
      else if allow_trailing then some (q + 1, count + 1)
      else none
    else some (i, count)
  termination_by i _ => tokens.length - i
  decreasing_by
    simp_wf
    have hgen : ∀ j, j ≤ gapTo tokens allow_gaps j := by
      intro j
      unfold gapTo skipGaps
      split
      · split <;> omega
      · omega
    have h1 : i ≤ gapTo tokens allow_gaps i := hgen i
    have h2 : gapTo tokens allow_gaps i + 1 ≤
        gapTo tokens allow_gaps (gapTo tokens allow_gaps i + 1) :=
      hgen (gapTo tokens allow_gaps i + 1)
    have h3 : gapTo tokens allow_gaps (gapTo tokens allow_gaps i + 1) < tokens.length := by
      by_contra hcon
      unfold kwMatchAt at hr
      rw [List.get?_eq_none.mpr (le_of_not_lt hcon)] at hr
      cases hr
    omega

/-- Modelled from the spec: `Delimited(element, delimiter, min_delimiters,
allow_trailing, allow_gaps)` "matches element (delimiter element)* optionally
followed by a trailing delimiter; fails if fewer than `min_delimiters`
delimiters were found even if elements matched". Returns the matched length
(0 for no match). -/
def delimitedMatch (tokens : List Token) (elemKw delimKw : String)
    (min_delimiters : Nat) (allow_gaps allow_trailing : Bool) : Nat :=
  if kwMatchAt tokens elemKw 0 then
    match delimitedLoop tokens elemKw delimKw allow_gaps allow_trailing 1 0 with
    | some p => if p.2 < min_delimiters then 0 else p.1
    | none => 0
  else 0

/-- The token list of the spec's Delimited scenario:
`["bar", " \t ", ".", "    ", "bar"]`. -/
def delimitedDemoTokens : List Token :=
  [⟨"bar", true⟩, ⟨" \t ", false⟩, ⟨".", true⟩, ⟨"    ", false⟩, ⟨"bar", true⟩]

/-- A raw segment as seen by the reindent engine: its class type tags
(`class_types`: "whitespace", "newline", "comment", "indent", "placeholder",
"template_loop", "end_of_file", "statement_terminator", ...), raw text, code
flag, and the attributes the engine reads — whether it has a position marker
(insertions do not), whether it is templated, the consumed source text
(`pos_marker.source_str()` / `source_str`), the signed `indent_val` of indent
metas, and the `block_type`/`block_uuid` of placeholders. -/
structure RawSeg where
  types : List String
  raw : String
  isCode : Bool := false
  hasPosMarker : Bool := true
  isTemplated : Bool := false
  sourceStr : String := ""
  indentVal : Int := 0
  blockType : String := ""
  blockUuid : Option Nat := none
deriving Repr, DecidableEq, Inhabited

/-- `seg.is_type(t)`: membership of a tag in the segment's class types. -/
def RawSeg.is_type (s : RawSeg) (t : String) : Bool := s.types.contains t

/-- A reflow element. Modelled from the spec (the reflow elements module is not
under src/): a Point wraps a run of whitespace/newline/meta segments between
blocks; a Block wraps one content run and records the class types of its
ancestor stack (`depth_info.stack_class_types`). -/
inductive RElem where
  | point (segments : List RawSeg)
  | block (segments : List RawSeg) (stackClassTypes : List (List String))
deriving Repr, DecidableEq, Inhabited

def RElem.segments : RElem → List RawSeg
  | .point segs => segs
  | .block segs _ => segs

def RElem.isPoint : RElem → Bool
  | .point _ => true
  | .block _ _ => false

/-- Modelled from the spec: an element's `class_types` is the set of class
types of its segments. -/
def RElem.class_types (e : RElem) : List String :=
  (e.segments.map RawSeg.types).flatten

/-- Trough accumulator: the minimum intermediate balance reached while summing
the deltas left to right (starting from zero). -/
def troughAux : List Int → Int → Int → Int
  | [], _, tr => tr
  | d :: rest, running, tr => troughAux rest (running + d) (min tr (running + d))

/-- Modelled from the spec: a point's "indent impulse" is the "sum of signed
deltas of any Indent/Dedent meta tokens inside it" and its "trough" "the
minimum intermediate balance reached while summing left-to-right"
(`ReflowPoint.get_indent_impulse`, elements module, not under src/). -/
def get_indent_impulse (e : RElem) : Int × Int :=
  let deltas := e.segments.filterMap
    (fun s => if s.is_type "indent" then some s.indentVal else none)
  (deltas.sum, troughAux deltas 0 0)

/-- Embedding of `has_untemplated_newline` (reindent.py, lines 41-64): does a
point contain a literal newline, or a literal placeholder that consumed one?
The source's assertion that placeholders in points are literal is an invariant
and does not change the value. -/
def has_untemplated_newline (point : RElem) : Bool :=
  if !(point.class_types.contains "newline" || point.class_types.contains "placeholder")
  then false
  else
    point.segments.any (fun seg =>
      (seg.is_type "newline" && (!seg.hasPosMarker || !seg.isTemplated)) ||
      (seg.is_type "placeholder" && seg.sourceStr.contains (Char.ofNat 10)))

/-- `s * n` for strings (python string repetition). -/
def strRepeat (s : String) (n : Nat) : String := String.join (List.replicate n s)

/-- Python `str * int`: repetition, empty for a non-positive count. -/
def strMulInt (s : String) (n : Int) : String := strRepeat s n.toNat

/-- Python `s.split("\n")[-1] or ""`. -/
def lastSplitNewline (s : String) : String :=
  (s.splitOn "\n").getLastD ""

/-- Python `min` over a list of ints (meaningful for nonempty lists). -/
def listMinInt (l : List Int) : Int := l.foldl min (l.headD 0)

/-- Python `max` over a list of ints (meaningful for nonempty lists). -/
def listMaxInt (l : List Int) : Int := l.foldl max (l.headD 0)

/-- Python `range(a, b)` over ints. -/
def intRange (a b : Int) : List Int :=
  (List.range (b - a).toNat).map (fun n => a + n)

/-- Embedding of the `_IndentPoint` dataclass (reindent.py, lines 67-90). -/
structure IndentPoint where
  idx : Nat
  indent_impulse : Int
  indent_trough : Int
  initial_indent_balance : Int
  last_line_break_idx : Option Nat
  is_line_break : Bool
  untaken_indents : List Int
deriving Repr, DecidableEq, Inhabited

def IndentPoint.closing_indent_balance (p : IndentPoint) : Int :=
  p.initial_indent_balance + p.indent_impulse

/-- Embedding of the `_IndentLine` dataclass (reindent.py, lines 93-214). -/
structure IndentLine where
  initial_indent_balance : Int
  indent_points : List IndentPoint
deriving Repr, DecidableEq, Inhabited

/-- Embedding of `_IndentLine.from_points` (reindent.py, lines 105-113). NOTE:
the python truthiness test `if indent_points[-1].last_line_break_idx:` is false
both for None and for index 0. The inputs are nonempty by construction; the
default is only for totality. -/
def IndentLine.from_points (indent_points : List IndentPoint) : IndentLine :=
  if ((indent_points.getLastD default).last_line_break_idx.getD 0) ≠ 0 then
    { initial_indent_balance := (indent_points.headD default).closing_indent_balance,
      indent_points := indent_points }
  else
    { initial_indent_balance := 0, indent_points := indent_points }

/-- Embedding of `_IndentLine.iter_blocks` (reindent.py, lines 115-124). -/
def IndentLine.iter_blocks (self : IndentLine) (elements : List RElem) : List RElem :=
  let range_slice :=
    if (self.indent_points.getLastD default).last_line_break_idx = none then
      listSlice elements 0 (self.indent_points.getLastD default).idx
    else
      listSlice elements (self.indent_points.headD default).idx
        (self.indent_points.getLastD default).idx
  range_slice.filter (fun e => !e.isPoint)

/-- Embedding of `_IndentLine._iter_block_segments` (reindent.py, lines 126-130). -/
def IndentLine.block_segments (self : IndentLine) (elements : List RElem) : List RawSeg :=
  ((self.iter_blocks elements).map RElem.segments).flatten

/-- Embedding of `_IndentLine.is_all_comments` (reindent.py, lines 132-137). -/
def IndentLine.is_all_comments (self : IndentLine) (elements : List RElem) : Bool :=
  let segs := self.block_segments elements
  !segs.isEmpty && segs.all (fun s => s.is_type "comment")

/-- Embedding of `_IndentLine.is_all_templates` (reindent.py, lines 139-144). -/
def IndentLine.is_all_templates (self : IndentLine) (elements : List RElem) : Bool :=
  let segs := self.block_segments elements
  !segs.isEmpty && segs.all (fun s => s.is_type "placeholder" || s.is_type "template_loop")

/-- Embedding of `_IndentLine.desired_indent_units` (reindent.py, lines
146-197): prune the untaken indents by the trough when the first point's
`indent_trough` is nonzero (python truthiness), then desired = incoming
balance − relevant untaken indents + previously forced indents. -/
def IndentLine.desired_indent_units (self : IndentLine) (forced_indents : List Int) : Int :=
  let p0 := self.indent_points.headD default
  let relevant_untaken_indents : List Int :=
    if p0.indent_trough ≠ 0 then
      p0.untaken_indents.filter (fun i =>
        i ≤ self.initial_indent_balance - (p0.indent_impulse - p0.indent_trough))
    else
      p0.untaken_indents
  self.initial_indent_balance - relevant_untaken_indents.length + forced_indents.length

/-- Embedding of `_IndentLine.closing_balance` (reindent.py, lines 199-201). -/
def IndentLine.closing_balance (self : IndentLine) : Int :=
  (self.indent_points.getLastD default).closing_indent_balance

/-- Embedding of `_IndentLine.opening_balance` (reindent.py, lines 203-214):
zero for the first line of a file. -/
def IndentLine.opening_balance (self : IndentLine) : Int :=
  if (self.indent_points.getLastD default).last_line_break_idx = none then 0
  else (self.indent_points.headD default).closing_indent_balance

/-- Modelled from the spec: a lint result from the indent engine, reduced to
the index of the reflow point whose replacement it describes (each fix is
"anchored to a specific token or token-range"). -/
structure LintResult where
  anchor : Nat
deriving Repr, DecidableEq, Inhabited

/-- Modelled from the spec: `ReflowPoint.indent_to` (elements module, not under
src/) rewrites a point so that the indent it carries becomes `desired`,
returning one lint result anchored at the given element index together with
the new point (a line break followed by the desired indent). -/
def indent_to (_point : RElem) (desired : String) (anchorIdx : Nat) :
    List LintResult × RElem :=
  ([{ anchor := anchorIdx }],
    RElem.point [{ types := ["newline"], raw := "\n" },
                 { types := ["whitespace"], raw := desired }])

/-- State of the loop in `_crawl_indent_points`. `has_newline` mirrors the
python local variable that persists between loop iterations (the first element
of a reflow sequence is always a point, which assigns it before first use; the
initial value here is arbitrary). -/
structure CrawlState where
  last_line_break_idx : Option Nat
  indent_balance : Int
  untaken_indents : List Int
  has_newline : Bool
  points : List IndentPoint
deriving Repr, Inhabited

/-- One iteration of the loop of `_crawl_indent_points` (reindent.py, lines
460-518); yields are accumulated in `points`. The source's
`elements[idx + 1]` access is modelled with a harmless default: the final
element of a reflow sequence is always a point, so in real sequences the
access is in bounds whenever the branch is evaluated. -/
def crawlStep (elements : List RElem) (st : CrawlState) (ie : Nat × RElem) : CrawlState :=
  match ie with
  | (_, RElem.block _ _) => st
  | (idx, RElem.point segs) =>
    let elem := RElem.point segs
    let p := get_indent_impulse elem
    let indent_impulse := p.1
    let indent_trough := p.2
    let st1 :=
      if has_untemplated_newline elem && decide (st.last_line_break_idx ≠ some idx) then
        { st with
          points := st.points ++ [⟨idx, indent_impulse, indent_trough,
            st.indent_balance, st.last_line_break_idx, true, st.untaken_indents⟩],
          last_line_break_idx := some idx,
          has_newline := true }
      else if decide (indent_impulse ≠ 0) || decide (indent_trough ≠ 0) ||
          decide (idx = 0) ||
          ((elements.getD (idx + 1) default).segments.headD default).is_type
            "end_of_file" then
        { st with
          points := st.points ++ [⟨idx, indent_impulse, indent_trough,
            st.indent_balance, st.last_line_break_idx, false, st.untaken_indents⟩],
          has_newline := false }
      else st
    -- strip any untaken indents above the new balance (back to the trough)
    let stripped := st1.untaken_indents.filter (fun x =>
      x ≤ (if indent_trough < indent_impulse
           then st1.indent_balance + indent_impulse + indent_trough
           else st1.indent_balance + indent_impulse))
    -- after stripping, we may have to add them back in
    let untaken2 :=
      if indent_impulse > indent_trough && !st1.has_newline then
        stripped ++ (intRange indent_trough indent_impulse).map
          (fun i => st1.indent_balance + i + 1)
      else stripped
    { st1 with
      untaken_indents := untaken2,
      indent_balance := st1.indent_balance + indent_impulse }

/-- Embedding of `_crawl_indent_points` (reindent.py, lines 447-518). -/
def _crawl_indent_points (elements : List RElem) : List IndentPoint :=
  (elements.enum.foldl (crawlStep elements) ⟨none, 0, [], false, []⟩).points

/-- State of the loop in `_map_line_buffers`. -/
structure MapState where
  lines : List IndentLine
  point_buffer : List IndentPoint
deriving Repr, Inhabited

/-- One iteration of the loop of `_map_line_buffers` (reindent.py, lines
526-537). -/
def mapLineStep (st : MapState) (indent_point : IndentPoint) : MapState :=
  let pb := st.point_buffer ++ [indent_point]
  if !indent_point.is_line_break then
    { st with point_buffer := pb }
  else
    { lines := st.lines ++ [IndentLine.from_points pb],
      point_buffer := [indent_point] }

/-- Embedding of `_map_line_buffers` (reindent.py, lines 521-543). -/
def _map_line_buffers (elements : List RElem) : List IndentLine :=
  let st := (_crawl_indent_points elements).foldl mapLineStep ⟨[], []⟩
  if st.point_buffer.length > 1 then
    st.lines ++ [IndentLine.from_points st.point_buffer]
  else st.lines

/-- The "steps" (wiggle room) of one line in `_revise_templated_lines`
(reindent.py, lines 302-321): the line's own balance, the balances obtained
running backward through the pre point, and those obtained running forward
through the post point. -/
def lineSteps (lines : List IndentLine) (elements : List RElem) (idx : Nat) : List Int :=
  let line := lines.getD idx default
  let back := ((elements.getD (line.indent_points.headD default).idx default).segments.reverse.foldl
    (fun (acc : Int × List Int) seg =>
      let b := if seg.is_type "indent" then acc.1 - seg.indentVal else acc.1
      (b, acc.2 ++ [b]))
    (line.initial_indent_balance, [])).2
  let fwd := ((elements.getD (line.indent_points.getLastD default).idx default).segments.foldl
    (fun (acc : Int × List Int) seg =>
      let b := if seg.is_type "indent" then acc.1 + seg.indentVal else acc.1
      (b, acc.2 ++ [b]))
    (line.initial_indent_balance, [])).2
  line.initial_indent_balance :: (back ++ fwd)

/-- The lines strictly between the first and the last line of a group,
excluding (by value) the lines of the group itself (reindent.py, lines
325-333). -/
def group_intermediate_lines (lines : List IndentLine) (group_lines : List Nat) :
    List IndentLine :=
  (listSlice lines (group_lines.headD 0 + 1) (group_lines.getLastD 0)).filter
    (fun l => !((group_lines.map (fun idx => lines.getD idx default)).contains l))

/-- The limit indent derived from the intermediate lines (reindent.py, lines
338-343): "minus one to reverse the effect that the block has already had". -/
def groupLimit (lines : List IndentLine) (group_lines : List Nat) : Int :=
  listMinInt ((group_intermediate_lines lines group_lines).map
    (fun l => l.initial_indent_balance - 1))

/-- Embedding of the body of the per-group loop of `_revise_templated_lines`
(reindent.py, lines 283-377): revise one group of all-template lines sharing a
block uuid. Python runtime errors (`min()` of an empty sequence,
`set.intersection()` applied to no sets) are modelled as `none`. -/
def _revise_group (lines : List IndentLine) (elements : List RElem)
    (group_lines : List Nat) : Option (List IndentLine) :=
  -- Case 1: all the same
  if ((group_lines.map (fun idx =>
      (lines.getD idx default).initial_indent_balance)).dedup.length = 1) then
    some lines
  else
    -- Case 2: the adjacent points offer wiggle room; the sets of options
    let options : List (List Int) := group_lines.map (lineSteps lines elements)
    let first_line_idx := group_lines.headD 0
    let last_line_idx := group_lines.getLastD 0
    if (group_intermediate_lines lines group_lines).isEmpty then none
    else
      let limit_indent := groupLimit lines group_lines
      match options with
      | [] => none
      | o :: rest =>
        let overlap := (o.filter (fun i => rest.all (fun s => s.contains i))).filter
          (fun i => i ≤ limit_indent)
        if !overlap.isEmpty then
          -- Case 2: go for the deeper option
          let best_indent := listMaxInt overlap
          some (lines.mapIdx (fun i l =>
            if group_lines.contains i then
              { l with initial_indent_balance := best_indent }
            else l))
        else
          -- Case 3: the minimum of the existing indents; remove one indent
          -- from all intermediate lines
          let best_indent := listMinInt (group_lines.map (fun idx =>
            (lines.getD idx default).initial_indent_balance))
          let lines2 := lines.mapIdx (fun i l =>
            if first_line_idx + 1 ≤ i ∧ i < last_line_idx ∧ !(group_lines.contains i) then
              { l with initial_indent_balance := l.initial_indent_balance - 1 }
            else l)
          some (lines2.mapIdx (fun i l =>
            if group_lines.contains i then
              { l with initial_indent_balance := best_indent }
            else l))

/-- Embedding of `_revise_templated_lines` (reindent.py, lines 217-393):
group the all-template lines by block uuid, revise each group from the most
indented down, then drop any lines whose placeholder contains newlines. The
failed assertion on a non-placeholder first segment is modelled as `none`. -/
def _revise_templated_lines (lines : List IndentLine) (elements : List RElem) :
    Option (List IndentLine) :=
  -- collect (line index, block uuid) pairs for all-template lines
  let pairsOpt := lines.enum.foldl
    (fun (acc : Option (List (Nat × Nat))) (il : Nat × IndentLine) =>
      match acc with
      | none => none
      | some acc2 =>
        if (il.2).is_all_templates elements then
          let segment := (elements.getD
            ((il.2.indent_points.getLastD default).idx - 1) default).segments.headD
            default
          if !(segment.is_type "placeholder" || segment.is_type "template_loop") then
            none
          else
            match segment.blockUuid with
            | some u => some (acc2 ++ [(il.1, u)])
            | none => some acc2
        else some acc2)
    (some [])
  match pairsOpt with
  | none => none
  | some pairs =>
    let uuids := (pairs.map Prod.snd).dedup
    let depths := fun u => (pairs.filter (fun p => p.2 = u)).map
      (fun p => (lines.getD p.1 default).initial_indent_balance)
    -- most indented first (python sorted with reverse=True)
    let sorted_uuids := uuids.insertionSort
      (fun a b => listMaxInt (depths b) ≤ listMaxInt (depths a))
    let revisedOpt := sorted_uuids.foldl
      (fun (acc : Option (List IndentLine)) u =>
        match acc with
        | none => none
        | some ls =>
          _revise_group ls elements ((pairs.filter (fun p => p.2 = u)).map Prod.fst))
      (some lines)
    match revisedOpt with
    | none => none
    | some lines2 =>
      -- remove lines whose placeholder contains newlines
      some (lines2.foldl (fun cur line =>
        let first_seg := (elements.getD
          ((line.indent_points.headD default).idx + 1) default).segments.headD default
        if first_seg.sourceStr ≠ first_seg.raw &&
            first_seg.sourceStr.contains (Char.ofNat 10) then
          cur.erase line
        else cur) lines2)

/-- Embedding of `_revise_comment_lines` (reindent.py, lines 396-432): lines
consisting only of comments inherit the indent balance of the next non-comment
line, trailing ones anchor to the baseline. -/
def _revise_comment_lines (lines : List IndentLine) (elements : List RElem) :
    List IndentLine :=
  let st := lines.enum.foldl
    (fun (st : List Nat × List IndentLine) (il : Nat × IndentLine) =>
      if (il.2).is_all_comments elements then (st.1 ++ [il.1], st.2)
      else
        let cur2 := st.1.foldl (fun c i =>
          c.set i { (c.getD i default) with
            initial_indent_balance := il.2.initial_indent_balance }) st.2
        ([], cur2))
    ([], lines)
  st.1.foldl (fun c i =>
    c.set i { (c.getD i default) with initial_indent_balance := 0 }) st.2

/-- Helper for the modelled `_get_indent_segment`: walk the segments from the
end; the first newline ends the search, whitespace before it becomes the
candidate indent. -/
def getIndentAux : List RawSeg → Option RawSeg → Option RawSeg
  | [], _ => none
  | seg :: rest, cur =>
    if seg.is_type "newline" then cur
    else if seg.is_type "whitespace" then getIndentAux rest (some seg)
    else getIndentAux rest cur

/-- Modelled from the spec: `ReflowPoint._get_indent_segment` (elements module,
not under src/): the indent of a point is the whitespace segment following its
final newline, if any. -/
def RElem.get_indent_segment (e : RElem) : Option RawSeg :=
  getIndentAux e.segments.reverse none

/-- Embedding of `_deduce_line_current_indent` (reindent.py, lines 546-590).
Python truthiness again: `if last_indent_point.last_line_break_idx:` is false
for None and index 0. The templated-indent branch raises
`NotImplementedError` in the source and is modelled as `none`, as is the
assertion that an indent contains no newline. -/
def _deduce_line_current_indent (elements : List RElem)
    (last_indent_point : IndentPoint) : Option String :=
  let indent_seg : Option RawSeg :=
    if (last_indent_point.last_line_break_idx.getD 0) ≠ 0 then
      (elements.getD (last_indent_point.last_line_break_idx.getD 0)
        default).get_indent_segment
    else if (elements.headD default).isPoint then
      (elements.headD default).segments.reverse.find? (fun s => s.is_type "whitespace")
    else none
  match indent_seg with
  | none => some ""
  | some seg =>
    if seg.is_type "placeholder" then
      -- a consumed indent
      some (lastSplitNewline seg.sourceStr)
    else if !seg.hasPosMarker || !seg.isTemplated then
      if seg.raw.contains (Char.ofNat 10) then none
      else some seg.raw
    else none

/-- Embedding of `_lint_line_starting_indent` (reindent.py, lines 593-640).
Returns the results, the updated element buffer, and the slot edits performed
on it (so the imperative layer can replay the buffer assignments). -/
def _lint_line_starting_indent (elements : List RElem) (indent_line : IndentLine)
    (single_indent : String) (forced_indents : List Int) :
    Option (List LintResult × List RElem × List (Nat × RElem)) :=
  let indent_points := indent_line.indent_points
  let p0 := indent_points.headD default
  match _deduce_line_current_indent elements (indent_points.getLastD default) with
  | none => none
  | some current_indent =>
    let desired_units := indent_line.desired_indent_units forced_indents
    let desired_starting_indent := strMulInt single_indent desired_units
    let initial_point := elements.getD p0.idx default
    if current_indent = desired_starting_indent then
      some ([], elements, [])
    else if p0.idx = 0 && !p0.is_line_break then
      -- "First line should not be indented": delete fixes, new empty point
      let new_point := RElem.point []
      some ([{ anchor := p0.idx }], elements.set p0.idx new_point,
        [(p0.idx, new_point)])
    else
      let r := indent_to initial_point desired_starting_indent p0.idx
      some (r.1, elements.set p0.idx r.2, [(p0.idx, r.2)])

/-- Embedding of `_lint_line_untaken_positive_indents` (reindent.py, lines
643-702). The unreachable `NotImplementedError` when no point attains the
closing trough is modelled as `none`. -/
def _lint_line_untaken_positive_indents (elements : List RElem)
    (indent_line : IndentLine) (single_indent : String) :
    Option (List LintResult × List Int × List RElem × List (Nat × RElem)) :=
  let starting_balance := indent_line.opening_balance
  if indent_line.closing_balance ≤ starting_balance then some ([], [], elements, [])
  else
    let plast := indent_line.indent_points.getLastD default
    let closing_trough :=
      if plast.indent_trough ≠ 0 then
        plast.initial_indent_balance + plast.indent_trough
      else
        plast.initial_indent_balance + plast.indent_impulse
    if closing_trough ≤ starting_balance then some ([], [], elements, [])
    else if !(plast.untaken_indents.contains closing_trough) then
      some ([], [], elements, [])
    else
      match indent_line.indent_points.find?
        (fun ip => ip.closing_indent_balance = closing_trough) with
      | none => none
      | some ip =>
        let desired_indent := strMulInt single_indent
          (ip.closing_indent_balance - ip.untaken_indents.length)
        let target_point := elements.getD ip.idx default
        let r := indent_to target_point desired_indent ip.idx
        some (r.1, [closing_trough], elements.set ip.idx r.2, [(ip.idx, r.2)])

/-- One iteration of the loop of `_lint_line_untaken_negative_indents`
(reindent.py, lines 720-792): decide whether the point is skipped — a line
break, a non-negative impulse, a yet-untaken and unforced indent, or a
following element containing a comment, a statement terminator or a block
placeholder — and otherwise force a line break there. -/
def negativeIndentStep (single_indent : String) (forced_indents : List Int)
    (st : List RElem × List LintResult × List (Nat × RElem)) (ip : IndentPoint) :
    List RElem × List LintResult × List (Nat × RElem) :=
  let elements := st.1
  if ip.is_line_break || decide (ip.indent_impulse ≥ 0) then st
  else if ip.untaken_indents.contains ip.initial_indent_balance &&
      !(forced_indents.contains ip.initial_indent_balance) then st
  else if !(elements.drop (ip.idx + 1)).isEmpty &&
      (elements.getD (ip.idx + 1) default).class_types.contains "comment" then st
  else if !(elements.drop (ip.idx + 1)).isEmpty &&
      (elements.getD (ip.idx + 1) default).class_types.contains
        "statement_terminator" then st
  else if !(elements.drop (ip.idx + 1)).isEmpty &&
      (elements.getD (ip.idx + 1) default).class_types.contains "placeholder" &&
      (elements.getD (ip.idx + 1) default).segments.any (fun seg =>
        seg.is_type "placeholder" && seg.blockType.startsWith "block") then st
  else
    let desired_indent := strMulInt single_indent
      (ip.closing_indent_balance - ip.untaken_indents.length + forced_indents.length)
    let target_point := elements.getD ip.idx default
    let r := indent_to target_point desired_indent ip.idx
    (elements.set ip.idx r.2, st.2.1 ++ r.1, st.2.2 ++ [(ip.idx, r.2)])

/-- Embedding of `_lint_line_untaken_negative_indents` (reindent.py, lines
705-794): evaluate every point of the line but the last. -/
def _lint_line_untaken_negative_indents (elements : List RElem)
    (indent_line : IndentLine) (single_indent : String)
    (forced_indents : List Int) :
    List RElem × List LintResult × List (Nat × RElem) :=
  if indent_line.closing_balance ≥ indent_line.opening_balance then
    (elements, [], [])
  else
    indent_line.indent_points.dropLast.foldl
      (negativeIndentStep single_indent forced_indents) (elements, [], [])

/-- Embedding of `_lint_line_buffer_indents` (reindent.py, lines 797-876):
starting indent first, then untaken positive indents (banking any new forced
indents and returning early when fixes were emitted), then untaken negative
indents, and finally pruning forced indents above the closing balance. -/
def _lint_line_buffer_indents (elements : List RElem) (indent_line : IndentLine)
    (single_indent : String) (forced_indents : List Int) :
    Option (List LintResult × List RElem × List (Nat × RElem) × List Int) :=
  match _lint_line_starting_indent elements indent_line single_indent forced_indents with
  | none => none
  | some (results1, elements1, edits1) =>
    match _lint_line_untaken_positive_indents elements1 indent_line single_indent with
    | none => none
    | some (new_results, new_indents, elements2, edits2) =>
      if !new_results.isEmpty then
        some (results1 ++ new_results, elements2, edits1 ++ edits2,
          forced_indents ++ new_indents)
      else
        let r3 := _lint_line_untaken_negative_indents elements2 indent_line
          single_indent forced_indents
        let forced2 := forced_indents.filter
          (fun i => decide (i ≤ indent_line.closing_balance))
        some (results1 ++ r3.2.1, r3.1, edits1 ++ edits2 ++ r3.2.2, forced2)

/-- The skip filter of `lint_indent_points` (reindent.py, lines 913-925):
drop lines lying within any of the configured segment types. -/
def skipFilter (lines : List IndentLine) (elements : List RElem)
    (skip_indentation_in : List String) : List IndentLine :=
  lines.filter (fun line =>
    !(line.iter_blocks elements).any (fun block =>
      match block with
      | RElem.block _ stackClassTypes =>
        stackClassTypes.any (fun types =>
          types.any (fun t => skip_indentation_in.contains t))
      | RElem.point _ => false))

/-- Embedding of `lint_indent_points` (reindent.py, lines 879-939), value
level: map the line buffers, revise templated and comment lines, apply the
skip filter, then evaluate each line against a working copy of the element
buffer, threading the forced indents. Besides the final buffer and the
results, the slot edits performed on the buffer are returned in order, so that
the imperative layer below can replay them. -/
def lint_indent_points (elements : List RElem) (single_indent : String)
    (skip_indentation_in : List String) :
    Option (List RElem × List LintResult × List (Nat × RElem)) :=
  match _revise_templated_lines (_map_line_buffers elements) elements with
  | none => none
  | some lines1 =>
    let lines2 := _revise_comment_lines lines1 elements
    let lines3 := skipFilter lines2 elements skip_indentation_in
    -- elem_buffer = elements.copy()  (a working copy to mutate)
    let looped := lines3.foldl
      (fun (acc : Option (List RElem × List LintResult × List (Nat × RElem) × List Int))
          line =>
        match acc with
        | none => none
        | some (buf, results, edits, forced) =>
          match _lint_line_buffer_indents buf line single_indent forced with
          | none => none
          | some (rs, buf2, eds, forced2) =>
            some (buf2, results ++ rs, edits ++ eds, forced2))
      (some (elements, [], [], []))
    match looped with
    | none => none
    | some (buf, results, edits, _) => some (buf, results, edits)

/-- A heap cell for the imperative model of `lint_indent_points`: a reflow
element object, or a python list object holding references. -/
inductive Cell where
  | obj (e : RElem)
  | list (refs : List Nat)
deriving Repr, DecidableEq, Inhabited

/-- The heap of the imperative model: cells addressed by allocation index. -/
abbrev Heap := List Cell

def readListRefs (h : Heap) (r : Nat) : List Nat :=
  match h.getD r default with
  | Cell.list refs => refs
  | Cell.obj _ => []

def readObj (h : Heap) (r : Nat) : RElem :=
  match h.getD r default with
  | Cell.obj e => e
  | Cell.list _ => default

/-- Read the element sequence held by the list object at `r`. -/
def readElements (h : Heap) (r : Nat) : List RElem :=
  (readListRefs h r).map (readObj h)

/-- Allocate a fresh cell; returns the new heap and the fresh reference. -/
def allocCell (h : Heap) (c : Cell) : Heap × Nat := (h ++ [c], h.length)

/-- Overwrite one slot of the list object at `r` with a reference. -/
def writeListSlot (h : Heap) (r idx objRef : Nat) : Heap :=
  h.set r (Cell.list ((readListRefs h r).set idx objRef))

/-- Replay one element-buffer edit (python `elem_buffer[idx] = new_point`):
allocate the new point object and assign its reference into the buffer slot. -/
def applyEdit (bufRef : Nat) (h : Heap) (edit : Nat × RElem) : Heap :=
  let a := allocCell h (Cell.obj edit.2)
  writeListSlot a.1 bufRef edit.1 a.2

/-- Imperative embedding of `lint_indent_points` over the heap model. The
input element list object at `elemsRef` is only ever read;
`elem_buffer = elements.copy()` allocates a fresh list object sharing the
element references, and every corrective point replacement is a slot
assignment on that fresh buffer, allocating a fresh object for the new point.
On an internal error (a raised exception in the source) no buffer is
returned. -/
def lint_indent_points_imp (h : Heap) (elemsRef : Nat) (single_indent : String)
    (skip_indentation_in : List String) : Heap × Option (Nat × List LintResult) :=
  let elements := readElements h elemsRef
  match lint_indent_points elements single_indent skip_indentation_in with
  | none => (h, none)
  | some (_, results, edits) =>
    let a := allocCell h (Cell.list (readListRefs h elemsRef))
    let h2 := edits.foldl (applyEdit a.2) a.1
    (h2, some (a.2, results))

/-- The first indent point of the line used in the C3 witness. -/
def c3p0 : IndentPoint :=
  { idx := 1, indent_impulse := -1, indent_trough := -1,
    initial_indent_balance := 3, last_line_break_idx := some 1,
    is_line_break := true, untaken_indents := [2, 3] }

/-- The line used in the C3 witness. -/
def c3line : IndentLine :=
  { initial_indent_balance := 2, indent_points := [c3p0] }

/-- The lines of the C5 witness: a group of two all-template lines at balances
1 and 2 with an intermediate line at balance 5. -/
def c5lines : List IndentLine :=
  [{ initial_indent_balance := 1, indent_points := [] },
   { initial_indent_balance := 5, indent_points := [] },
   { initial_indent_balance := 2, indent_points := [] }]

/-- The protected point of the C9 witness: an otherwise-qualifying taken
negative indent whose following element is a comment. -/
def c9ip : IndentPoint :=
  { idx := 0, indent_impulse := -1, indent_trough := -1,
    initial_indent_balance := 3, last_line_break_idx := some 5,
    is_line_break := false, untaken_indents := [] }

/-- The closing point of the C9 witness line. -/
def c9plast : IndentPoint :=
  { idx := 2, indent_impulse := 0, indent_trough := 0,
    initial_indent_balance := 1, last_line_break_idx := some 5,
    is_line_break := true, untaken_indents := [] }

def c9line : IndentLine :=
  { initial_indent_balance := 2, indent_points := [c9ip, c9plast] }

def c9elements : List RElem :=
  [RElem.point [],
   RElem.block [{ types := ["comment"], raw := "-- c", isCode := true }] []]

/-- The concrete heap of the C10 witness: one element object and the input
list object referring to it. -/
def c10heap : Heap := [Cell.obj (RElem.point []), Cell.list [0]]

theorem join_segments_raw_append (a b : List Segment) :
    join_segments_raw (a ++ b) = join_segments_raw a ++ join_segments_raw b := by
  induction a with
  | nil => simp [join_segments_raw, Segment.rawTextList]
  | cons s rest ih =>
    simp only [join_segments_raw] at *
    rw [List.cons_append, Segment.rawTextList, Segment.rawTextList, ih,
      String.append_assoc]

/-- C8: the completeness check raises (here: returns an error) exactly when the
concatenated raw text of the matched plus unmatched segments differs from the
concatenated raw text of the input segments; when the texts are equal it returns
normally (and, being a pure check, changes nothing). -/
theorem check_still_complete_spec (segments_in matched unmatched : List Segment) :
    if join_segments_raw segments_in = join_segments_raw (matched ++ unmatched)
    then check_still_complete segments_in matched unmatched = Except.ok ()
    else ∃ e, check_still_complete segments_in matched unmatched = Except.error e := by
  by_cases h : join_segments_raw segments_in = join_segments_raw (matched ++ unmatched)
  · simp [h, check_still_complete]
  · simp [h, check_still_complete]

/-- C7: an ordinary failure to match is returned as a data value: the empty
match at index `i` is the half-open slice `[i, i)` and always has its clean
flag set to false. -/
theorem empty_at_spec (idx : Nat) :
    (MatchResult2.empty_at idx).start = idx ∧
    (MatchResult2.empty_at idx).stop = idx ∧
    (MatchResult2.empty_at idx).is_clean = false := by
  refine ⟨rfl, rfl, rfl⟩

theorem is_better_than_iff (m b : MatchResult2) :
    m.is_better_than b = true ↔
      ((m.is_clean = true ∧ b.is_clean = false) ∨ b.length < m.length) := by
  unfold MatchResult2.is_better_than
  by_cases h1 : m.is_clean <;> by_cases h2 : b.is_clean <;> simp [h1, h2]

/-- Behaviour of the fold inside the modelled OneOf: the result is either the
starting incumbent (when nothing beats it) or the first alternative of maximal
length among the clean ones. -/
theorem oneof_fold_spec (l : List MatchResult2) :
    ∀ b : MatchResult2,
      (∀ m ∈ l, m.is_clean = false → m.length = 0) →
      (b.is_clean = false → b.length = 0) →
      (l.foldl oneOfStep b = b ∧
        ∀ m ∈ l, m.is_clean = true → b.is_clean = true ∧ m.length ≤ b.length) ∨
      (∃ pre post, l = pre ++ (l.foldl oneOfStep b :: post) ∧
        (l.foldl oneOfStep b).is_clean = true ∧
        (b.is_clean = true → b.length < (l.foldl oneOfStep b).length) ∧
        (∀ m ∈ l, m.is_clean = true → m.length ≤ (l.foldl oneOfStep b).length) ∧
        (∀ m ∈ pre, m.is_clean = true → m.length < (l.foldl oneOfStep b).length)) := by
  induction l with
  | nil =>
    intro b _ _
    exact Or.inl ⟨rfl, by simp⟩
  | cons m rest ih =>
    intro b hfail hb
    have hfail' : ∀ m' ∈ rest, m'.is_clean = false → m'.length = 0 :=
      fun m' hm' => hfail m' (List.mem_cons_of_mem _ hm')
    simp only [List.foldl_cons]
    by_cases hbet : m.is_better_than b = true
    · -- the head replaces the incumbent, so the head must be clean
      have hmclean : m.is_clean = true := by
        rcases (is_better_than_iff m b).mp hbet with ⟨h1, _⟩ | hlen
        · exact h1
        · by_contra hc
          have h0 : m.length = 0 :=
            hfail m (List.mem_cons_self _ _) (by simpa using hc)
          omega
      have hstep : oneOfStep b m = m := by simp [oneOfStep, hbet]
      rw [hstep]
      have hblt : b.is_clean = true → b.length < m.length := by
        intro hbc
        rcases (is_better_than_iff m b).mp hbet with ⟨_, h2⟩ | hlen
        · rw [hbc] at h2; cases h2
        · exact hlen
      rcases ih m hfail' (by intro h; rw [h] at hmclean; cases hmclean) with
        ⟨heq, hall⟩ | ⟨pre, post, heq, hclean, hlt, hall, hpre⟩
      · refine Or.inr ⟨[], rest, by rw [heq]; rfl, by rw [heq]; exact hmclean, ?_, ?_, by simp⟩
        · intro hbc; rw [heq]; exact hblt hbc
        · intro m' hm' hcl
          rw [heq]
          rcases List.mem_cons.mp hm' with h | h
          · subst h; exact le_rfl
          · exact (hall m' h hcl).2
      · refine Or.inr ⟨m :: pre, post,
          by rw [List.cons_append]; exact congrArg (m :: ·) heq, hclean, ?_, ?_, ?_⟩
        · intro hbc
          exact lt_trans (hblt hbc) (hlt hmclean)
        · intro m' hm' hcl
          rcases List.mem_cons.mp hm' with h | h
          · subst h; exact le_of_lt (hlt hmclean)
          · exact hall m' h hcl
        · intro m' hm' hcl
          rcases List.mem_cons.mp hm' with h | h
          · subst h; exact hlt hmclean
          · exact hpre m' h hcl
    · -- the incumbent survives the head
      have hstep : oneOfStep b m = b := by simp [oneOfStep, hbet]
      rw [hstep]
      have hmb : m.is_clean = true → b.is_clean = true ∧ m.length ≤ b.length := by
        intro hmc
        have hn : ¬((m.is_clean = true ∧ b.is_clean = false) ∨ b.length < m.length) :=
          fun h => hbet ((is_better_than_iff m b).mpr h)
        push_neg at hn
        obtain ⟨h1, h2⟩ := hn
        refine ⟨?_, h2⟩
        have := h1 hmc
        simpa using this
      rcases ih b hfail' hb with ⟨heq, hall⟩ | ⟨pre, post, heq, hclean, hlt, hall, hpre⟩
      · refine Or.inl ⟨heq, ?_⟩
        intro m' hm' hcl
        rcases List.mem_cons.mp hm' with h | h
        · subst h; exact hmb hcl
        · exact hall m' h hcl
      · refine Or.inr ⟨m :: pre, post,
          by rw [List.cons_append]; exact congrArg (m :: ·) heq, hclean, hlt, ?_, ?_⟩
        · intro m' hm' hcl
          rcases List.mem_cons.mp hm' with h | h
          · subst h
            exact le_of_lt (lt_of_le_of_lt (hmb hcl).2 (hlt (hmb hcl).1))
          · exact hall m' h hcl
        · intro m' hm' hcl
          rcases List.mem_cons.mp hm' with h | h
          · subst h
            exact lt_of_le_of_lt (hmb hcl).2 (hlt (hmb hcl).1)
          · exact hpre m' h hcl

/-- C2: for the OneOf combinator (modelled from the spec over the source's
`MatchResult2.is_better_than` comparison), provided every failing alternative
reports failure as an empty unclean match, the returned match is the longest
among all alternatives that matched at all, and on ties the alternative listed
first wins: no alternative listed before the returned one matches with a
length greater than or equal to the result. -/
theorem oneof_longest_first (alternatives : List MatchResult2) (idx : Nat)
    (hfail : ∀ m ∈ alternatives, m.is_clean = false → m.length = 0)
    (hmatch : ∃ m ∈ alternatives, m.is_clean = true) :
    ∃ pre post,
      alternatives = pre ++ (oneOfMatch alternatives idx :: post) ∧
      (oneOfMatch alternatives idx).is_clean = true ∧
      (∀ m ∈ alternatives, m.is_clean = true →
        m.length ≤ (oneOfMatch alternatives idx).length) ∧
      (∀ m ∈ pre, m.is_clean = true →
        m.length < (oneOfMatch alternatives idx).length) := by
  simp only [oneOfMatch]
  have hb : (MatchResult2.empty_at idx).is_clean = false →
      (MatchResult2.empty_at idx).length = 0 := by
    intro _
    simp [MatchResult2.empty_at, MatchResult2.length, MatchResult2.start,
      MatchResult2.stop]
  rcases oneof_fold_spec alternatives (MatchResult2.empty_at idx) hfail hb with
    ⟨_, hall⟩ | ⟨pre, post, heq, hclean, _, hall, hpre⟩
  · obtain ⟨m, hm, hmc⟩ := hmatch
    have hfalse := (hall m hm hmc).1
    simp [MatchResult2.empty_at, MatchResult2.is_clean] at hfalse
  · exact ⟨pre, post, heq, hclean, hall, hpre⟩

/-- Witness for C2 at a concrete input. -/
theorem oneof_longest_first_witness :
    ∃ pre post,
      oneofWitnessAlts = pre ++ (oneOfMatch oneofWitnessAlts 0 :: post) ∧
      (oneOfMatch oneofWitnessAlts 0).is_clean = true ∧
      (∀ m ∈ oneofWitnessAlts, m.is_clean = true →
        m.length ≤ (oneOfMatch oneofWitnessAlts 0).length) ∧
      (∀ m ∈ pre, m.is_clean = true →
        m.length < (oneOfMatch oneofWitnessAlts 0).length) :=
  oneof_longest_first oneofWitnessAlts 0
    (by
      intro m hm hcl
      simp only [oneofWitnessAlts, List.mem_cons, List.mem_singleton] at hm
      rcases hm with rfl | rfl | rfl | hm
      · cases hcl
      · cases hcl
      · simp [MatchResult2.length, MatchResult2.start, MatchResult2.stop,
          MatchResult2.empty_at]
      · cases hm)
    ⟨MatchResult2.mk 0 2 none [] [] true, by simp [oneofWitnessAlts], rfl⟩

theorem join_segments_raw_nil : join_segments_raw ([] : List Segment) = "" := rfl

theorem listSlice_same {α : Type _} (l : List α) (a : Nat) : listSlice l a a = [] := by
  simp [listSlice]

theorem listSlice_append {α : Type _} (l : List α) (a b c : Nat)
    (hab : a ≤ b) (hbc : b ≤ c) :
    listSlice l a b ++ listSlice l b c = listSlice l a c := by
  unfold listSlice
  have h1 : c - a = (b - a) + (c - b) := by omega
  have h2 : l.drop b = (l.drop a).drop (b - a) := by
    rw [List.drop_drop]
    congr 1
    omega
  rw [h1, List.take_add, h2]

theorem listSlice_single {α : Type _} (l : List α) (a : Nat) (h : a < l.length) :
    listSlice l a (a + 1) = [l[a]] := by
  unfold listSlice
  have h1 : a + 1 - a = 1 := by omega
  rw [h1, List.drop_eq_getElem_cons h, List.take_succ_cons, List.take_zero]

theorem join_segments_raw_metas (ps : List (Nat × Nat)) :
    join_segments_raw (ps.map (fun p => Segment.meta p.2)) = "" := by
  induction ps with
  | nil => rfl
  | cons p rest ih =>
    simp only [List.map_cons, join_segments_raw, Segment.rawTextList,
      Segment.rawText] at *
    rw [ih]
    rfl

theorem filter_key_small {β : Type _} (l : List (Nat × β))
    (h : l.Pairwise (fun a b => a.1 ≠ b.1)) (key : Nat) :
    l.filter (fun c => c.1 = key) = [] ∨
      ∃ c, c ∈ l ∧ c.1 = key ∧ l.filter (fun c => c.1 = key) = [c] := by
  induction l with
  | nil => exact Or.inl rfl
  | cons a rest ih =>
    rcases List.pairwise_cons.mp h with ⟨ha, hrest⟩
    by_cases hk : a.1 = key
    · right
      refine ⟨a, List.mem_cons_self _ _, hk, ?_⟩
      rw [List.filter_cons_of_pos (by simpa using hk)]
      have hnil : rest.filter (fun c => decide (c.1 = key)) = [] := by
        apply List.filter_eq_nil_iff.mpr
        intro c hc
        simp only [decide_eq_true_eq]
        intro hck
        exact (ha c hc) (hk.trans hck.symm)
      rw [hnil]
    · rw [List.filter_cons_of_neg (by simpa using hk)]
      rcases ih hrest with h0 | ⟨c, hc, hck, hfc⟩
      · exact Or.inl h0
      · exact Or.inr ⟨c, List.mem_cons_of_mem _ hc, hck, hfc⟩

theorem pairwise_lt_of_sorted_nodup :
    ∀ (l : List Nat), l.Pairwise (· ≤ ·) → l.Nodup → l.Pairwise (· < ·) := by
  intro l
  induction l with
  | nil => intro _ _; exact .nil
  | cons a rest ih =>
    intro hs hn
    rcases List.pairwise_cons.mp hs with ⟨ha, hs2⟩
    rcases List.pairwise_cons.mp hn with ⟨hane, hn2⟩
    exact List.Pairwise.cons
      (fun b hb => lt_of_le_of_ne (ha b hb) (hane b hb)) (ih hs2 hn2)

theorem pairwise_sym_forall {α : Type _} {S : α → α → Prop}
    (hsym : ∀ a b, S a b → S b a) :
    ∀ (l : List α), l.Pairwise S → ∀ a ∈ l, ∀ b ∈ l, a ≠ b → S a b := by
  intro l
  induction l with
  | nil => intro _ a ha; cases ha
  | cons x rest ih =>
    intro hp a ha b hb hne
    obtain ⟨hx, hrest⟩ := List.pairwise_cons.mp hp
    rcases List.mem_cons.mp ha with rfl | ha2 <;> rcases List.mem_cons.mp hb with rfl | hb2
    · exact absurd rfl hne
    · exact hx b hb2
    · exact hsym _ _ (hx a ha2)
    · exact ih hrest a ha2 b hb2 hne

theorem childrenChain_facts (hi : Nat) :
    ∀ (lo : Nat) (l : List MatchResult2),
      childrenChain lo hi l = true →
      (∀ c ∈ l, c.start ≤ c.stop) →
      (∀ c ∈ l, lo ≤ c.start ∧ c.stop ≤ hi) ∧
        l.Pairwise (fun a b => a.stop ≤ b.start) := by
  intro lo l
  induction l generalizing lo with
  | nil => intro _ _; exact ⟨by simp, List.Pairwise.nil⟩
  | cons c rest ih =>
    intro h hws
    simp only [childrenChain, Bool.and_eq_true, decide_eq_true_eq] at h
    obtain ⟨⟨hlo, hhi⟩, hrest⟩ := h
    have hws2 : ∀ x ∈ rest, x.start ≤ x.stop :=
      fun x hx => hws x (List.mem_cons_of_mem _ hx)
    obtain ⟨hmem, hpair⟩ := ih c.stop hrest hws2
    refine ⟨?_, ?_⟩
    · intro x hx
      rcases List.mem_cons.mp hx with rfl | hx2
      · exact ⟨hlo, hhi⟩
      · have h1 := hmem x hx2
        have h2 := hws c (List.mem_cons_self _ _)
        exact ⟨le_trans hlo (le_trans h2 h1.1), h1.2⟩
    · exact List.Pairwise.cons (fun x hx => (hmem x hx).1) hpair

theorem wfList_mem :
    ∀ (l : List MatchResult2), MatchResult2.wfList l = true →
      ∀ c ∈ l, MatchResult2.wf c = true := by
  intro l
  induction l with
  | nil => intro _ c hc; cases hc
  | cons a rest ih =>
    intro h c hc
    simp only [MatchResult2.wfList, Bool.and_eq_true] at h
    rcases List.mem_cons.mp hc with rfl | hc2
    · exact h.1
    · exact ih h.2 c hc2

theorem wf_start_lt_stop (m : MatchResult2) (h : MatchResult2.wf m = true) :
    m.start < m.stop := by
  cases m with
  | mk start stop mclass inserts children clean =>
    simp only [MatchResult2.wf, Bool.and_eq_true, decide_eq_true_eq] at h
    exact h.1.1.1.1.1

theorem applyChildren_eq_map (l : List MatchResult2) (segments : List Segment) :
    MatchResult2.applyChildren l segments =
      l.map (fun c => (c.start, c.stop, MatchResult2.apply c segments)) := by
  induction l with
  | nil => rfl
  | cons c rest ih => simp [MatchResult2.applyChildren, ih]

theorem applyKids_single (ck cs : Nat) (segs : List Segment) (key : Nat) :
    applyKids [(ck, cs, some segs)] key = some (segs ++ [], cs) := by
  rw [applyKids, Option.some_bind, applyKids, Option.some_bind]

/-- Core lemma for C1: working through a sorted run of trigger locations that
lie between `maxIdx` and `stop`, never strictly inside a child slice, with at
most one raw-preserving child per location, reproduces exactly the raw text of
`segments[maxIdx:stop]`. -/
theorem applyTriggers_ok (segments : List Segment)
    (inserts : List (Nat × Nat))
    (childResults : List (Nat × Nat × Option (List Segment)))
    (stop : Nat)
    (hdist : childResults.Pairwise (fun a b => a.1 ≠ b.1)) :
    ∀ (keys : List Nat) (maxIdx : Nat),
      List.Pairwise (· < ·) keys →
      (∀ k ∈ keys, maxIdx ≤ k ∧ k ≤ stop) →
      maxIdx ≤ stop →
      (∀ c ∈ childResults, c.1 ∈ keys →
        c.1 < c.2.1 ∧ c.2.1 ≤ stop ∧
        ∃ segs, c.2.2 = some segs ∧
          join_segments_raw segs = join_segments_raw (listSlice segments c.1 c.2.1)) →
      (∀ k ∈ keys, ∀ c ∈ childResults, c.1 ∈ keys → ¬(c.1 < k ∧ k < c.2.1)) →
      ∃ out, applyTriggers segments inserts childResults keys maxIdx stop = some out ∧
        join_segments_raw out = join_segments_raw (listSlice segments maxIdx stop) := by
  intro keys
  induction keys with
  | nil =>
    intro maxIdx _ _ hms _ _
    refine ⟨_, rfl, ?_⟩
    by_cases h : maxIdx < stop
    · rw [if_pos h]
    · have heq : maxIdx = stop := by omega
      subst heq
      rw [if_neg h, listSlice_same]
  | cons key rest ihkeys =>
    intro maxIdx hsort hrange hms hkids hnin
    obtain ⟨hsk, hsort2⟩ := List.pairwise_cons.mp hsort
    have hkey := hrange key (List.mem_cons_self _ _)
    have hnlt : ¬ key < maxIdx := by omega
    have hrange2 : ∀ k ∈ rest, key ≤ k ∧ k ≤ stop := by
      intro k hk
      exact ⟨le_of_lt (hsk k hk), (hrange k (List.mem_cons_of_mem _ hk)).2⟩
    have hkids2 : ∀ c ∈ childResults, c.1 ∈ rest →
        c.1 < c.2.1 ∧ c.2.1 ≤ stop ∧
        ∃ segs, c.2.2 = some segs ∧
          join_segments_raw segs = join_segments_raw (listSlice segments c.1 c.2.1) :=
      fun c hc hk => hkids c hc (List.mem_cons_of_mem _ hk)
    have hnin2 : ∀ k ∈ rest, ∀ c ∈ childResults, c.1 ∈ rest → ¬(c.1 < k ∧ k < c.2.1) :=
      fun k hk c hc hck =>
        hnin k (List.mem_cons_of_mem _ hk) c hc (List.mem_cons_of_mem _ hck)
    rcases filter_key_small childResults hdist key with hfe | ⟨c, hcmem, hckey, hfc⟩
    · -- no child registered at this location
      obtain ⟨tail, htail, htraw⟩ :=
        ihkeys key hsort2 hrange2 hkey.2 hkids2 hnin2
      have hcompute :
          applyTriggers segments inserts childResults (key :: rest) maxIdx stop =
            some (listSlice segments maxIdx key ++
              (inserts.filter (fun p => p.1 = key)).map (fun p => Segment.meta p.2) ++
              [] ++ tail) := by
        rw [applyTriggers, if_neg hnlt, hfe, applyKids, Option.some_bind]
        dsimp only
        rw [htail, Option.some_bind]
      refine ⟨_, hcompute, ?_⟩
      rw [join_segments_raw_append, join_segments_raw_append,
        join_segments_raw_append, join_segments_raw_metas, join_segments_raw_nil,
        String.append_empty, String.append_empty, htraw,
        ← join_segments_raw_append,
        listSlice_append segments maxIdx key stop hkey.1 hkey.2]
    · -- exactly one child registered at this location
      obtain ⟨ck, cs, cres⟩ := c
      have hckey2 : key = ck := Eq.symm hckey
      subst hckey2
      obtain ⟨hc1, hc2, segs, hsegs, hsraw⟩ :=
        hkids (key, cs, cres) hcmem (List.mem_cons_self _ _)
      have hc1b : key < cs := hc1
      have hc2b : cs ≤ stop := hc2
      have hsegs2 : cres = some segs := hsegs
      subst hsegs2
      have hsraw2 : join_segments_raw segs =
          join_segments_raw (listSlice segments key cs) := hsraw
      have hrest3 : ∀ k ∈ rest, cs ≤ k ∧ k ≤ stop := by
        intro k hk
        have hlt := hsk k hk
        have hni : ¬(key < k ∧ k < cs) :=
          hnin k (List.mem_cons_of_mem _ hk) (key, cs, some segs) hcmem
            (List.mem_cons_self _ _)
        refine ⟨?_, (hrange k (List.mem_cons_of_mem _ hk)).2⟩
        by_contra hcon
        exact hni ⟨hlt, by omega⟩
      obtain ⟨tail, htail, htraw⟩ :=
        ihkeys cs hsort2 hrest3 hc2b hkids2 hnin2
      have hcompute :
          applyTriggers segments inserts childResults (key :: rest) maxIdx stop =
            some (listSlice segments maxIdx key ++
              (inserts.filter (fun p => p.1 = key)).map (fun p => Segment.meta p.2) ++
              (segs ++ []) ++ tail) := by
        rw [applyTriggers, if_neg hnlt, hfc, applyKids_single, Option.some_bind]
        dsimp only
        rw [htail, Option.some_bind]
      refine ⟨_, hcompute, ?_⟩
      rw [List.append_nil]
      rw [join_segments_raw_append, join_segments_raw_append,
        join_segments_raw_append, join_segments_raw_metas,
        String.append_empty, htraw, hsraw2,
        ← join_segments_raw_append,
        listSlice_append segments maxIdx key cs hkey.1 (le_of_lt hc1b),
        ← join_segments_raw_append,
        listSlice_append segments maxIdx cs stop (le_trans hkey.1 (le_of_lt hc1b)) hc2b]

/-- Auxiliary form of C1, by strong induction on the size of the match result:
applying a well-formed match whose slice is in bounds succeeds and reproduces
exactly the raw text of the matched slice of the input segments. -/
theorem apply_ok :
    ∀ (n : Nat) (m : MatchResult2) (segments : List Segment),
      sizeOf m ≤ n → MatchResult2.wf m = true → m.stop ≤ segments.length →
      ∃ out, MatchResult2.apply m segments = some out ∧
        join_segments_raw out = join_segments_raw (listSlice segments m.start m.stop) := by
  intro n
  induction n with
  | zero =>
    intro m segments hsz _ _
    exfalso
    cases m with
    | mk a b c d e f =>
      simp [MatchResult2.mk.sizeOf_spec] at hsz
  | succ n ih =>
    intro m segments hsz hwf hstop
    cases m with
    | mk start stop mclass inserts children clean =>
    simp only [MatchResult2.wf, Bool.and_eq_true] at hwf
    obtain ⟨⟨⟨⟨⟨ha, hb⟩, hc⟩, hd⟩, he⟩, hf⟩ := hwf
    have h1 : start < stop := by simpa using ha
    have h2 : ∀ p ∈ inserts, start ≤ p.1 ∧ p.1 ≤ stop := by
      intro p hp
      have h := List.all_eq_true.mp hb p hp
      simp only [Bool.and_eq_true, decide_eq_true_eq] at h
      exact h
    have h3 : ∀ p ∈ inserts, ∀ cc ∈ children, p.1 ≤ cc.start ∨ cc.stop ≤ p.1 := by
      intro p hp cc hcc
      have h := List.all_eq_true.mp hc p hp
      have h4 := List.all_eq_true.mp h cc hcc
      simpa using h4
    have hstop2 : stop ≤ segments.length := hstop
    have hcw : ∀ cc ∈ children, MatchResult2.wf cc = true := wfList_mem children hf
    have hws : ∀ cc ∈ children, cc.start ≤ cc.stop :=
      fun cc hcc => le_of_lt (wf_start_lt_stop cc (hcw cc hcc))
    obtain ⟨hbounds, hpair⟩ := childrenChain_facts stop start children hd hws
    have hsize : ∀ cc ∈ children, sizeOf cc ≤ n := by
      intro cc hcc
      have hlt := List.sizeOf_lt_of_mem hcc
      have hlt2 : sizeOf children <
          sizeOf (MatchResult2.mk start stop mclass inserts children clean) := by
        simp [MatchResult2.mk.sizeOf_spec]
        omega
      omega
    have hmemkeys : ∀ k, k ∈ triggerKeys inserts children ↔
        (k ∈ inserts.map Prod.fst ∨ k ∈ children.map MatchResult2.start) := by
      intro k
      rw [triggerKeys, (List.perm_insertionSort _ _).mem_iff, List.mem_dedup,
        List.mem_append]
    have hsorted : (triggerKeys inserts children).Pairwise (· < ·) := by
      apply pairwise_lt_of_sorted_nodup
      · exact List.sorted_insertionSort _ _
      · exact ((List.perm_insertionSort _ _).nodup_iff).mpr (List.nodup_dedup _)
    have hrangekeys : ∀ k ∈ triggerKeys inserts children, start ≤ k ∧ k ≤ stop := by
      intro k hk
      rcases (hmemkeys k).mp hk with hki | hkc
      · obtain ⟨p, hp, rfl⟩ := List.mem_map.mp hki
        exact h2 p hp
      · obtain ⟨cc, hcc, rfl⟩ := List.mem_map.mp hkc
        exact ⟨(hbounds cc hcc).1, le_trans (hws cc hcc) (hbounds cc hcc).2⟩
    have hACm : MatchResult2.applyChildren children segments =
        children.map (fun cc => (cc.start, cc.stop, MatchResult2.apply cc segments)) :=
      applyChildren_eq_map children segments
    have hdist : (MatchResult2.applyChildren children segments).Pairwise
        (fun a b => a.1 ≠ b.1) := by
      rw [hACm, List.pairwise_map]
      refine hpair.imp_of_mem ?_
      intro a b hamem hbmem hr
      have hlt := wf_start_lt_stop a (hcw a hamem)
      show a.start ≠ b.start
      omega
    have hkids : ∀ x ∈ MatchResult2.applyChildren children segments,
        x.1 ∈ triggerKeys inserts children →
        x.1 < x.2.1 ∧ x.2.1 ≤ stop ∧
        ∃ segs, x.2.2 = some segs ∧
          join_segments_raw segs = join_segments_raw (listSlice segments x.1 x.2.1) := by
      intro x hx _
      rw [hACm] at hx
      obtain ⟨cc, hcc, rfl⟩ := List.mem_map.mp hx
      have hcwf := hcw cc hcc
      have hlt := wf_start_lt_stop cc hcwf
      have hbnd := hbounds cc hcc
      obtain ⟨out, hout, hraw⟩ :=
        ih cc segments (hsize cc hcc) hcwf (le_trans hbnd.2 hstop2)
      exact ⟨hlt, hbnd.2, out, hout, hraw⟩
    have hnin : ∀ k ∈ triggerKeys inserts children,
        ∀ x ∈ MatchResult2.applyChildren children segments,
        x.1 ∈ triggerKeys inserts children → ¬(x.1 < k ∧ k < x.2.1) := by
      intro k hk x hx _
      rw [hACm] at hx
      obtain ⟨cc, hcc, rfl⟩ := List.mem_map.mp hx
      show ¬(cc.start < k ∧ k < cc.stop)
      rintro ⟨hk1, hk2⟩
      rcases (hmemkeys k).mp hk with hki | hkc
      · obtain ⟨p, hp, rfl⟩ := List.mem_map.mp hki
        rcases h3 p hp cc hcc with hle | hle <;> omega
      · obtain ⟨c2, hc2, rfl⟩ := List.mem_map.mp hkc
        by_cases hcc2 : c2 = cc
        · subst hcc2
          omega
        · have hS := pairwise_sym_forall
            (S := fun a b => MatchResult2.stop a ≤ MatchResult2.start b ∨
              MatchResult2.stop b ≤ MatchResult2.start a)
            (fun a b h => h.symm) children (hpair.imp (fun h => Or.inl h))
            c2 hc2 cc hcc hcc2
          have hlt2 := wf_start_lt_stop c2 (hcw c2 hc2)
          rcases hS with h | h <;> omega
    obtain ⟨res, hres, hresraw⟩ :=
      applyTriggers_ok segments inserts (MatchResult2.applyChildren children segments)
        stop hdist (triggerKeys inserts children) start hsorted hrangekeys
        (le_of_lt h1) hkids hnin
    rcases mclass with _ | sc
    · -- no matched class: the flattened result is returned as-is
      refine ⟨res, ?_, hresraw⟩
      rw [MatchResult2.apply, if_neg (by omega), if_neg (by omega), hres,
        Option.some_bind]
    · have he2 : (!sc.isRawClass ||
          (decide (stop = start + 1) && inserts.isEmpty && children.isEmpty)) = true := he
      by_cases hrawc : sc.isRawClass = true
      · -- a raw matched class wraps exactly the single matched segment
        rw [hrawc] at he2
        simp only [Bool.not_true, Bool.false_or, Bool.and_eq_true,
          decide_eq_true_eq, List.isEmpty_iff] at he2
        obtain ⟨⟨hss, hie⟩, hce⟩ := he2
        subst hss
        subst hie
        subst hce
        have hlen : start < segments.length := by omega
        refine ⟨[Segment.raw (segments[start].rawText)], ?_, ?_⟩
        · rw [MatchResult2.apply, if_neg (by omega), if_neg (by omega)]
          have hkeys0 : triggerKeys [] ([] : List MatchResult2) = [] := rfl
          rw [hkeys0, applyTriggers, if_pos (by omega), Option.some_bind]
          dsimp only
          rw [if_pos hrawc, listSlice_single segments start hlen]
        · show join_segments_raw [Segment.raw (segments[start].rawText)] =
            join_segments_raw (listSlice segments start (start + 1))
          rw [listSlice_single segments start hlen]
          simp [join_segments_raw, Segment.rawTextList, Segment.rawText]
      · -- any other matched class wraps the whole flattened result
        refine ⟨[Segment.node sc.cls res], ?_, ?_⟩
        · rw [MatchResult2.apply, if_neg (by omega), if_neg (by omega), hres,
            Option.some_bind]
          dsimp only
          rw [if_neg hrawc]
        · show join_segments_raw [Segment.node sc.cls res] =
            join_segments_raw (listSlice segments start stop)
          rw [← hresraw]
          simp [join_segments_raw, Segment.rawTextList, Segment.rawText,
            String.append_empty]

/-- C1 (counterexample): the claim as stated is false on the code. The match
result below has no child matches at all — so its child match slices trivially
nest without overlapping — and its matched slice `[0, 1)` lies within the
bounds of the three-segment array; yet `apply` returns segments whose raw text
concatenates to "ab" while `segments[0:1]` concatenates to "a": the insert
location 2, outside the matched slice, drags an extra original token into the
output, so a token is duplicated relative to the matched slice. -/
theorem apply_claim_counterexample :
    childrenChain 0 1 (MatchResult2.mk 0 1 none [(2, 0)] [] true).child_matches = true ∧
    (MatchResult2.mk 0 1 none [(2, 0)] [] true).stop ≤
      ([Segment.raw "a", Segment.raw "b", Segment.raw "c"] : List Segment).length ∧
    MatchResult2.apply (.mk 0 1 none [(2, 0)] [] true)
        [.raw "a", .raw "b", .raw "c"] = some [.raw "a", .raw "b", .meta 0] ∧
    join_segments_raw [Segment.raw "a", Segment.raw "b", Segment.meta 0] ≠
      join_segments_raw
        (listSlice [Segment.raw "a", Segment.raw "b", Segment.raw "c"] 0 1) := by
  refine ⟨rfl, by decide, rfl, ?_⟩
  decide

/-- C1 (amended): for every well-formed `MatchResult2` — child match slices
nesting inside the matched slice without overlapping, a positive slice length
at every level, insert positions within the slice and never strictly inside a
child slice, and raw matched classes only wrapping a single-segment slice —
whose matched slice lies within the bounds of the segment array, `apply`
succeeds and concatenating the raw text of the returned segments equals the
concatenation of the raw text of `segments[matched_slice.start :
matched_slice.stop]`: every original token appears exactly once. -/
theorem apply_reproduces_raw (m : MatchResult2) (segments : List Segment)
    (hwf : MatchResult2.wf m = true) (hb : m.stop ≤ segments.length) :
    ∃ out, MatchResult2.apply m segments = some out ∧
      join_segments_raw out = join_segments_raw (listSlice segments m.start m.stop) :=
  apply_ok (sizeOf m) m segments le_rfl hwf hb

/-- Witness for C1 (amended) at a concrete input. -/
theorem apply_reproduces_raw_witness :
    ∃ out, MatchResult2.apply c1WitnessMatch c1WitnessSegments = some out ∧
      join_segments_raw out =
        join_segments_raw
          (listSlice c1WitnessSegments c1WitnessMatch.start c1WitnessMatch.stop) :=
  apply_reproduces_raw c1WitnessMatch c1WitnessSegments (by decide) (by decide)

/-- C6: the modelled Delimited grammar fails (returns the empty match, length 0)
whenever fewer than `min_delimiters` delimiters were found, even if the element
grammar matched; and on the tokens `["bar", whitespace, ".", whitespace,
"bar"]`, `min_delimiters = 0` with `allow_gaps = true` and
`allow_trailing = false` yields match length 5, while `min_delimiters = 1` with
`allow_gaps = false` yields match length 0. -/
theorem delimited_min_delimiters :
    (∀ (tokens : List Token) (elemKw delimKw : String) (minD : Nat)
        (gaps trailing : Bool) (endPos count : Nat),
      delimitedLoop tokens elemKw delimKw gaps trailing 1 0 = some (endPos, count) →
      count < minD →
      delimitedMatch tokens elemKw delimKw minD gaps trailing = 0) ∧
    delimitedMatch delimitedDemoTokens "bar" "." 0 true false = 5 ∧
    delimitedMatch delimitedDemoTokens "bar" "." 1 false false = 0 := by
  refine ⟨?_, ?_, ?_⟩
  · intro tokens elemKw delimKw minD gaps trailing endPos count hloop hcount
    unfold delimitedMatch
    split
    · rw [hloop]
      simp [hcount]
    · rfl
  · simp [delimitedMatch, delimitedLoop, gapTo, skipGaps, kwMatchAt,
      delimitedDemoTokens]
  · simp [delimitedMatch, delimitedLoop, gapTo, skipGaps, kwMatchAt,
      delimitedDemoTokens]

/-- Witness for C6: on the demo tokens exactly one delimiter is found, so
requiring at least two delimiters makes the whole match fail with length 0
even though the elements matched. -/
theorem delimited_min_delimiters_witness :
    delimitedMatch delimitedDemoTokens "bar" "." 2 true false = 0 :=
  delimited_min_delimiters.1 delimitedDemoTokens "bar" "." 2 true false 5 1
    (by simp [delimitedLoop, gapTo, skipGaps, kwMatchAt, delimitedDemoTokens])
    (by omega)

/-- C3: for every line as the engine constructs it — its balance equal to the
first point's closing balance and every untaken indent at most the first
point's incoming balance — the desired indent in units equals the line's starting
indent balance, minus the number of untaken indents still valid at the line's
first point (pruning any untaken indent whose balance exceeds the point's
trough balance), plus the number of indents forced open by earlier corrective
action. -/
theorem desired_indent_units_spec (line : IndentLine) (forced : List Int)
    (p0 : IndentPoint) (rest : List IndentPoint)
    (hp : line.indent_points = p0 :: rest)
    (hbal : line.initial_indent_balance =
      p0.initial_indent_balance + p0.indent_impulse)
    (hunt : ∀ i ∈ p0.untaken_indents, i ≤ p0.initial_indent_balance) :
    line.desired_indent_units forced =
      line.initial_indent_balance
      - (p0.untaken_indents.filter
          (fun i => i ≤ p0.initial_indent_balance + p0.indent_trough)).length
      + forced.length := by
  unfold IndentLine.desired_indent_units
  rw [hp]
  simp only [List.headD_cons]
  by_cases ht : p0.indent_trough = 0
  · simp only [ht]
    rw [if_neg (by simp)]
    have hfe : p0.untaken_indents.filter
        (fun i => decide (i ≤ p0.initial_indent_balance + 0)) = p0.untaken_indents := by
      apply List.filter_eq_self.mpr
      intro a ha
      have := hunt a ha
      simp only [decide_eq_true_eq]
      omega
    rw [hfe]
  · rw [if_pos ht]
    have harith : line.initial_indent_balance -
        (p0.indent_impulse - p0.indent_trough) =
        p0.initial_indent_balance + p0.indent_trough := by omega
    simp only [harith]

theorem le_foldl_max : ∀ (l : List Int) (b : Int), b ≤ l.foldl max b := by
  intro l
  induction l with
  | nil => intro b; exact le_rfl
  | cons a t ih =>
    intro b
    rw [List.foldl_cons]
    exact le_trans (le_max_left b a) (ih (max b a))

theorem mem_le_foldl_max : ∀ (l : List Int) (b : Int), ∀ x ∈ l, x ≤ l.foldl max b := by
  intro l
  induction l with
  | nil => intro b x hx; cases hx
  | cons a t ih =>
    intro b x hx
    rw [List.foldl_cons]
    rcases List.mem_cons.mp hx with rfl | hx2
    · exact le_trans (le_max_right b x) (le_foldl_max t (max b x))
    · exact ih (max b a) x hx2

theorem foldl_max_mem : ∀ (l : List Int) (b : Int),
    l.foldl max b = b ∨ l.foldl max b ∈ l := by
  intro l
  induction l with
  | nil => intro b; exact Or.inl rfl
  | cons a t ih =>
    intro b
    rw [List.foldl_cons]
    rcases ih (max b a) with h | h
    · rw [h]
      rcases max_choice b a with h2 | h2
      · rw [h2]; exact Or.inl rfl
      · rw [h2]; exact Or.inr (List.mem_cons_self _ _)
    · exact Or.inr (List.mem_cons_of_mem _ h)

theorem listMaxInt_mem (l : List Int) (h : l ≠ []) : listMaxInt l ∈ l := by
  unfold listMaxInt
  rcases foldl_max_mem l (l.headD 0) with h2 | h2
  · rw [h2]
    cases l with
    | nil => exact absurd rfl h
    | cons a t => exact List.mem_cons_self _ _
  · exact h2

theorem listMaxInt_ge (l : List Int) : ∀ x ∈ l, x ≤ listMaxInt l :=
  fun x hx => mem_le_foldl_max l (l.headD 0) x hx

theorem foldl_min_le : ∀ (l : List Int) (b : Int), l.foldl min b ≤ b := by
  intro l
  induction l with
  | nil => intro b; exact le_rfl
  | cons a t ih =>
    intro b
    rw [List.foldl_cons]
    exact le_trans (ih (min b a)) (min_le_left b a)

theorem foldl_min_le_mem : ∀ (l : List Int) (b : Int), ∀ x ∈ l, l.foldl min b ≤ x := by
  intro l
  induction l with
  | nil => intro b x hx; cases hx
  | cons a t ih =>
    intro b x hx
    rw [List.foldl_cons]
    rcases List.mem_cons.mp hx with rfl | hx2
    · exact le_trans (foldl_min_le t (min b x)) (min_le_right b x)
    · exact ih (min b a) x hx2

theorem foldl_min_mem : ∀ (l : List Int) (b : Int),
    l.foldl min b = b ∨ l.foldl min b ∈ l := by
  intro l
  induction l with
  | nil => intro b; exact Or.inl rfl
  | cons a t ih =>
    intro b
    rw [List.foldl_cons]
    rcases ih (min b a) with h | h
    · rw [h]
      rcases min_choice b a with h2 | h2
      · rw [h2]; exact Or.inl rfl
      · rw [h2]; exact Or.inr (List.mem_cons_self _ _)
    · exact Or.inr (List.mem_cons_of_mem _ h)

theorem listMinInt_mem (l : List Int) (h : l ≠ []) : listMinInt l ∈ l := by
  unfold listMinInt
  rcases foldl_min_mem l (l.headD 0) with h2 | h2
  · rw [h2]
    cases l with
    | nil => exact absurd rfl h
    | cons a t => exact List.mem_cons_self _ _
  · exact h2

theorem listMinInt_le (l : List Int) : ∀ x ∈ l, listMinInt l ≤ x :=
  fun x hx => foldl_min_le_mem l (l.headD 0) x hx

theorem getD_mapIdx {α : Type _} [Inhabited α] (l : List α) (f : Nat → α → α)
    (i : Nat) (h : i < l.length) :
    (l.mapIdx f).getD i default = f i (l.getD i default) := by
  have h2 : i < (l.mapIdx f).length := by rw [List.length_mapIdx]; exact h
  rw [List.getD_eq_getElem?_getD, List.getD_eq_getElem?_getD,
    List.getElem?_eq_getElem h2, List.getElem?_eq_getElem h]
  simp only [Option.getD_some]
  exact List.get_mapIdx l f i h

theorem mem_overlap_iff (lines : List IndentLine) (elements : List RElem)
    (g0 : Nat) (gs : List Nat) (b : Int) :
    (b ∈ ((lineSteps lines elements g0).filter
      (fun i => (gs.map (lineSteps lines elements)).all (fun s => s.contains i))).filter
      (fun i => i ≤ groupLimit lines (g0 :: gs))) ↔
    ((∀ idx ∈ (g0 :: gs), b ∈ lineSteps lines elements idx) ∧
      b ≤ groupLimit lines (g0 :: gs)) := by
  simp only [List.mem_filter, List.all_eq_true, decide_eq_true_eq, List.forall_mem_cons]
  constructor
  · rintro ⟨⟨h1, h2⟩, h3⟩
    refine ⟨⟨h1, ?_⟩, h3⟩
    intro idx hidx
    have := h2 (lineSteps lines elements idx) (List.mem_map_of_mem _ hidx)
    simpa using this
  · rintro ⟨⟨h1, h2⟩, h3⟩
    refine ⟨⟨h1, ?_⟩, h3⟩
    intro s hs
    obtain ⟨idx, hidx, rfl⟩ := List.mem_map.mp hs
    simpa using h2 idx hidx

/-- Computation of `_revise_group` when the overlap is nonempty (case 2). -/
theorem revise_group_eq_case2 (lines : List IndentLine) (elements : List RElem)
    (g0 : Nat) (gs : List Nat)
    (hcase : ((g0 :: gs).map (fun idx =>
      (lines.getD idx default).initial_indent_balance)).dedup.length ≠ 1)
    (hinter : group_intermediate_lines lines (g0 :: gs) ≠ [])
    (hov : ((lineSteps lines elements g0).filter
      (fun i => (gs.map (lineSteps lines elements)).all (fun s => s.contains i))).filter
      (fun i => i ≤ groupLimit lines (g0 :: gs)) ≠ []) :
    _revise_group lines elements (g0 :: gs) =
      some (lines.mapIdx (fun i l =>
        if (g0 :: gs).contains i then
          { l with initial_indent_balance :=
              listMaxInt (((lineSteps lines elements g0).filter
                (fun i => (gs.map (lineSteps lines elements)).all
                  (fun s => s.contains i))).filter
                (fun i => i ≤ groupLimit lines (g0 :: gs))) }
        else l)) := by
  unfold _revise_group
  rw [if_neg hcase]
  simp only [List.map_cons]
  rw [if_neg (by simpa using hinter)]
  rw [if_pos (by simpa using hov)]

/-- Computation of `_revise_group` when the overlap is empty (case 3). -/
theorem revise_group_eq_case3 (lines : List IndentLine) (elements : List RElem)
    (g0 : Nat) (gs : List Nat)
    (hcase : ((g0 :: gs).map (fun idx =>
      (lines.getD idx default).initial_indent_balance)).dedup.length ≠ 1)
    (hinter : group_intermediate_lines lines (g0 :: gs) ≠ [])
    (hov : ((lineSteps lines elements g0).filter
      (fun i => (gs.map (lineSteps lines elements)).all (fun s => s.contains i))).filter
      (fun i => i ≤ groupLimit lines (g0 :: gs)) = []) :
    _revise_group lines elements (g0 :: gs) =
      some ((lines.mapIdx (fun i l =>
        if (g0 :: gs).headD 0 + 1 ≤ i ∧ i < (g0 :: gs).getLastD 0 ∧
            !((g0 :: gs).contains i) then
          { l with initial_indent_balance := l.initial_indent_balance - 1 }
        else l)).mapIdx (fun i l =>
        if (g0 :: gs).contains i then
          { l with initial_indent_balance :=
              listMinInt ((g0 :: gs).map (fun idx =>
                (lines.getD idx default).initial_indent_balance)) }
        else l)) := by
  unfold _revise_group
  rw [if_neg hcase]
  simp only [List.map_cons]
  rw [if_neg (by simpa using hinter)]
  rw [if_neg (by rw [hov]; simp)]

/-- C5: for a group of all-template lines sharing a block uuid whose initial
indent balances are not already equal (and which has intermediate lines, so
the intermediate-line limit exists): if a mutually-compatible balance exists
within the adjacent indent/dedent wiggle room (membership in every group
line's step options) and within the intermediate-line limit, all lines of the
group are set to the deepest such feasible balance and every other line is
untouched; if no such balance exists, all lines of the group are set to the
minimum observed balance and every intervening non-group line's balance is
reduced by exactly one. -/
theorem revise_group_spec (lines : List IndentLine) (elements : List RElem)
    (group_lines : List Nat) (g0 : Nat) (gs : List Nat)
    (hgl : group_lines = g0 :: gs)
    (hcase : (group_lines.map (fun idx =>
      (lines.getD idx default).initial_indent_balance)).dedup.length ≠ 1)
    (hinter : group_intermediate_lines lines group_lines ≠ [])
    (hbound : ∀ idx ∈ group_lines, idx < lines.length) :
    ∃ lines2, _revise_group lines elements group_lines = some lines2 ∧
      ((∃ best,
        (∀ idx ∈ group_lines, best ∈ lineSteps lines elements idx) ∧
        best ≤ groupLimit lines group_lines ∧
        (∀ b, (∀ idx ∈ group_lines, b ∈ lineSteps lines elements idx) →
          b ≤ groupLimit lines group_lines → b ≤ best) ∧
        (∀ idx ∈ group_lines,
          (lines2.getD idx default).initial_indent_balance = best) ∧
        (∀ i, i < lines.length → i ∉ group_lines →
          lines2.getD i default = lines.getD i default)) ∨
      ((∀ b, ¬((∀ idx ∈ group_lines, b ∈ lineSteps lines elements idx) ∧
          b ≤ groupLimit lines group_lines)) ∧
       (∃ mn,
         mn ∈ group_lines.map (fun idx =>
           (lines.getD idx default).initial_indent_balance) ∧
         (∀ x ∈ group_lines.map (fun idx =>
           (lines.getD idx default).initial_indent_balance), mn ≤ x) ∧
         (∀ idx ∈ group_lines,
           (lines2.getD idx default).initial_indent_balance = mn)) ∧
       (∀ i, i < lines.length → group_lines.headD 0 < i →
         i < group_lines.getLastD 0 → i ∉ group_lines →
         (lines2.getD i default).initial_indent_balance =
           (lines.getD i default).initial_indent_balance - 1))) := by
  subst hgl
  by_cases hov : ((lineSteps lines elements g0).filter
      (fun i => (gs.map (lineSteps lines elements)).all (fun s => s.contains i))).filter
      (fun i => i ≤ groupLimit lines (g0 :: gs)) = []
  · -- Case 3
    refine ⟨_, revise_group_eq_case3 lines elements g0 gs hcase hinter hov,
      Or.inr ⟨?_, ⟨listMinInt ((g0 :: gs).map (fun idx =>
        (lines.getD idx default).initial_indent_balance)), ?_, ?_, ?_⟩, ?_⟩⟩
    · intro b hb
      have hmem := (mem_overlap_iff lines elements g0 gs b).mpr hb
      rw [hov] at hmem
      cases hmem
    · exact listMinInt_mem _ (by simp)
    · exact listMinInt_le _
    · intro idx hidx
      have hlt : idx < (lines.mapIdx (fun i l =>
          if (g0 :: gs).headD 0 + 1 ≤ i ∧ i < (g0 :: gs).getLastD 0 ∧
              !((g0 :: gs).contains i) then
            { l with initial_indent_balance := l.initial_indent_balance - 1 }
          else l)).length := by
        rw [List.length_mapIdx]
        exact hbound idx hidx
      rw [getD_mapIdx _ _ idx hlt]
      rw [if_pos (by simp [List.contains, hidx])]
    · intro i hi h1 h2 hni
      have hlt : i < (lines.mapIdx (fun i l =>
          if (g0 :: gs).headD 0 + 1 ≤ i ∧ i < (g0 :: gs).getLastD 0 ∧
              !((g0 :: gs).contains i) then
            { l with initial_indent_balance := l.initial_indent_balance - 1 }
          else l)).length := by
        rw [List.length_mapIdx]
        exact hi
      rw [getD_mapIdx _ _ i hlt]
      rw [if_neg (by simp [List.contains, hni])]
      rw [getD_mapIdx _ _ i hi]
      rw [if_pos ⟨by simpa using h1, by simpa using h2, by simp [List.contains, hni]⟩]
  · -- Case 2
    have hmax := listMaxInt_mem _ hov
    have hfeas := (mem_overlap_iff lines elements g0 gs _).mp hmax
    refine ⟨_, revise_group_eq_case2 lines elements g0 gs hcase hinter hov,
      Or.inl ⟨_, hfeas.1, hfeas.2, ?_, ?_, ?_⟩⟩
    · intro b hb1 hb2
      exact listMaxInt_ge _ b ((mem_overlap_iff lines elements g0 gs b).mpr ⟨hb1, hb2⟩)
    · intro idx hidx
      rw [getD_mapIdx _ _ idx (hbound idx hidx)]
      rw [if_pos (by simp [List.contains, hidx])]
    · intro i hi hni
      rw [getD_mapIdx _ _ i hi]
      rw [if_neg (by simp [List.contains, hni])]

/-- Witness for C5 at a concrete input: with no wiggle room the group falls
into case 3 (minimum observed balance, intermediate lines reduced by one). -/
theorem revise_group_spec_witness :
    ∃ lines2, _revise_group c5lines [] [0, 2] = some lines2 ∧
      ((∃ best,
        (∀ idx ∈ [0, 2], best ∈ lineSteps c5lines [] idx) ∧
        best ≤ groupLimit c5lines [0, 2] ∧
        (∀ b, (∀ idx ∈ [0, 2], b ∈ lineSteps c5lines [] idx) →
          b ≤ groupLimit c5lines [0, 2] → b ≤ best) ∧
        (∀ idx ∈ [0, 2],
          (lines2.getD idx default).initial_indent_balance = best) ∧
        (∀ i, i < c5lines.length → i ∉ [0, 2] →
          lines2.getD i default = c5lines.getD i default)) ∨
      ((∀ b, ¬((∀ idx ∈ [0, 2], b ∈ lineSteps c5lines [] idx) ∧
          b ≤ groupLimit c5lines [0, 2])) ∧
       (∃ mn,
         mn ∈ ([0, 2] : List Nat).map (fun idx =>
           (c5lines.getD idx default).initial_indent_balance) ∧
         (∀ x ∈ ([0, 2] : List Nat).map (fun idx =>
           (c5lines.getD idx default).initial_indent_balance), mn ≤ x) ∧
         (∀ idx ∈ [0, 2],
           (lines2.getD idx default).initial_indent_balance = mn)) ∧
       (∀ i, i < c5lines.length → ([0, 2] : List Nat).headD 0 < i →
         i < ([0, 2] : List Nat).getLastD 0 → i ∉ [0, 2] →
         (lines2.getD i default).initial_indent_balance =
           (c5lines.getD i default).initial_indent_balance - 1))) :=
  revise_group_spec c5lines [] [0, 2] 0 [2] rfl (by decide) (by decide) (by decide)

theorem getD_set_ne {α : Type _} [Inhabited α] (l : List α) (i j : Nat) (a : α)
    (h : i ≠ j) : (l.set i a).getD j default = l.getD j default := by
  rw [List.getD_eq_getElem?_getD, List.getD_eq_getElem?_getD,
    List.getElem?_set_ne h]

/-- Each step of the negative-indent loop either leaves the state unchanged
(one of the skip branches fired) or — with all three protection guards false —
replaces the point at `q.idx` and emits exactly one result anchored there. -/
theorem negativeIndentStep_cases (si : String) (forced : List Int)
    (st : List RElem × List LintResult × List (Nat × RElem)) (q : IndentPoint) :
    negativeIndentStep si forced st q = st ∨
    (((!(st.1.drop (q.idx + 1)).isEmpty &&
        (st.1.getD (q.idx + 1) default).class_types.contains "comment") = false) ∧
     ((!(st.1.drop (q.idx + 1)).isEmpty &&
        (st.1.getD (q.idx + 1) default).class_types.contains
          "statement_terminator") = false) ∧
     ((!(st.1.drop (q.idx + 1)).isEmpty &&
        (st.1.getD (q.idx + 1) default).class_types.contains "placeholder" &&
        (st.1.getD (q.idx + 1) default).segments.any (fun seg =>
          seg.is_type "placeholder" && seg.blockType.startsWith "block")) = false) ∧
     ∃ newPt, negativeIndentStep si forced st q =
       (st.1.set q.idx newPt, st.2.1 ++ [{ anchor := q.idx }],
        st.2.2 ++ [(q.idx, newPt)])) := by
  unfold negativeIndentStep
  by_cases h1 : (q.is_line_break || decide (q.indent_impulse ≥ 0)) = true
  · rw [if_pos h1]; exact Or.inl rfl
  rw [if_neg h1]
  by_cases h2 : (q.untaken_indents.contains q.initial_indent_balance &&
      !(forced.contains q.initial_indent_balance)) = true
  · rw [if_pos h2]; exact Or.inl rfl
  rw [if_neg h2]
  by_cases h3 : (!(st.1.drop (q.idx + 1)).isEmpty &&
      (st.1.getD (q.idx + 1) default).class_types.contains "comment") = true
  · rw [if_pos h3]; exact Or.inl rfl
  rw [if_neg h3]
  by_cases h4 : (!(st.1.drop (q.idx + 1)).isEmpty &&
      (st.1.getD (q.idx + 1) default).class_types.contains
        "statement_terminator") = true
  · rw [if_pos h4]; exact Or.inl rfl
  rw [if_neg h4]
  by_cases h5 : (!(st.1.drop (q.idx + 1)).isEmpty &&
      (st.1.getD (q.idx + 1) default).class_types.contains "placeholder" &&
      (st.1.getD (q.idx + 1) default).segments.any (fun seg =>
        seg.is_type "placeholder" && seg.blockType.startsWith "block")) = true
  · rw [if_pos h5]; exact Or.inl rfl
  rw [if_neg h5]
  exact Or.inr ⟨by simpa using h3, by simpa using h4, by simpa using h5, _, rfl⟩

/-- Invariant of the negative-indent loop: when the element following `ip`
contains a comment, a statement terminator or a block placeholder, no result
anchored at `ip.idx` is ever emitted — the writes of the loop never touch
position `ip.idx + 1`, so the protection guard holds whenever a point at
`ip.idx` is reached. -/
theorem negative_fold_protected (elements0 : List RElem) (si : String)
    (forced : List Int) (ip : IndentPoint)
    (hb : ip.idx + 1 < elements0.length)
    (hprot :
      (elements0.getD (ip.idx + 1) default).class_types.contains "comment" = true ∨
      (elements0.getD (ip.idx + 1) default).class_types.contains
        "statement_terminator" = true ∨
      ((elements0.getD (ip.idx + 1) default).class_types.contains "placeholder" &&
        (elements0.getD (ip.idx + 1) default).segments.any (fun seg =>
          seg.is_type "placeholder" && seg.blockType.startsWith "block")) = true) :
    ∀ (pts : List IndentPoint)
      (st : List RElem × List LintResult × List (Nat × RElem)),
      (∀ q ∈ pts, q.idx ≠ ip.idx + 1) →
      st.1.getD (ip.idx + 1) default = elements0.getD (ip.idx + 1) default →
      st.1.length = elements0.length →
      (∀ r ∈ st.2.1, r.anchor ≠ ip.idx) →
      ∀ r ∈ (pts.foldl (negativeIndentStep si forced) st).2.1,
        r.anchor ≠ ip.idx := by
  intro pts
  induction pts with
  | nil =>
    intro st _ _ _ hanch r hr
    exact hanch r hr
  | cons q rest ih =>
    intro st hsep hagree hlen hanch r hr
    rw [List.foldl_cons] at hr
    have hsep2 : ∀ p ∈ rest, p.idx ≠ ip.idx + 1 :=
      fun p hp => hsep p (List.mem_cons_of_mem _ hp)
    rcases negativeIndentStep_cases si forced st q with hcase | ⟨h3, h4, h5, newPt, hcase⟩
    · rw [hcase] at hr
      exact ih st hsep2 hagree hlen hanch r hr
    · have hqne : q.idx ≠ ip.idx := by
        intro hq
        rw [hq] at h3 h4 h5
        have hdne : (st.1.drop (ip.idx + 1)).isEmpty = false := by
          have hlt : ip.idx + 1 < st.1.length := by omega
          rcases hdrop : st.1.drop (ip.idx + 1) with _ | ⟨x, xs⟩
          · have := List.drop_eq_nil_iff.mp hdrop
            omega
          · rfl
        rw [hdne] at h3 h4 h5
        simp only [Bool.not_false, Bool.true_and] at h3 h4 h5
        rw [hagree] at h3 h4 h5
        rcases hprot with hp | hp | hp
        · rw [hp] at h3; cases h3
        · rw [hp] at h4; cases h4
        · rw [hp] at h5; cases h5
      rw [hcase] at hr
      have hagree2 : ((st.1.set q.idx newPt, st.2.1 ++ [{ anchor := q.idx }],
          st.2.2 ++ [(q.idx, newPt)]) :
          List RElem × List LintResult × List (Nat × RElem)).1.getD
          (ip.idx + 1) default = elements0.getD (ip.idx + 1) default := by
        show (st.1.set q.idx newPt).getD (ip.idx + 1) default = _
        rw [getD_set_ne _ _ _ _ (hsep q (List.mem_cons_self _ _))]
        exact hagree
      have hlen2 : (st.1.set q.idx newPt).length = elements0.length := by
        rw [List.length_set]
        exact hlen
      have hanch2 : ∀ r2 ∈ st.2.1 ++ [({ anchor := q.idx } : LintResult)],
          r2.anchor ≠ ip.idx := by
        intro r2 hr2
        rcases List.mem_append.mp hr2 with h | h
        · exact hanch r2 h
        · rw [List.mem_singleton.mp h]
          exact hqne
      exact ih (st.1.set q.idx newPt, st.2.1 ++ [{ anchor := q.idx }],
        st.2.2 ++ [(q.idx, newPt)]) hsep2 hagree2 hlen2 hanch2 r hr

/-- C9: the negative-indent fixer never inserts a line break before a comment,
a statement terminator, or a block-template placeholder: for every indent
point of the line (distinct point positions, with blocks between points, as
the crawler produces them) whose following element contains a comment, a
statement_terminator, or a placeholder of a block type, no corrective fix
anchored at that point is emitted — even when the point is an
otherwise-qualifying taken negative indent. -/
theorem negative_indents_skip_protected (elements : List RElem)
    (indent_line : IndentLine) (single_indent : String) (forced_indents : List Int)
    (ip : IndentPoint)
    (_hmem : ip ∈ indent_line.indent_points.dropLast)
    (hsep : ∀ q ∈ indent_line.indent_points.dropLast, q.idx ≠ ip.idx + 1)
    (hb : ip.idx + 1 < elements.length)
    (hprot :
      (elements.getD (ip.idx + 1) default).class_types.contains "comment" = true ∨
      (elements.getD (ip.idx + 1) default).class_types.contains
        "statement_terminator" = true ∨
      ((elements.getD (ip.idx + 1) default).class_types.contains "placeholder" &&
        (elements.getD (ip.idx + 1) default).segments.any (fun seg =>
          seg.is_type "placeholder" && seg.blockType.startsWith "block")) = true) :
    ∀ r ∈ (_lint_line_untaken_negative_indents elements indent_line single_indent
      forced_indents).2.1, r.anchor ≠ ip.idx := by
  unfold _lint_line_untaken_negative_indents
  split
  · intro r hr
    simp at hr
  · exact negative_fold_protected elements single_indent forced_indents ip hb hprot
      indent_line.indent_points.dropLast (elements, [], []) hsep rfl rfl
      (by intro r hr; cases hr)

/-- Witness for C9 at a concrete input: the line closes below its opening
balance and the point at index 0 is a taken negative indent, but the following
element is a comment, so no fix is anchored there. -/
theorem negative_indents_skip_protected_witness :
    (_lint_line_untaken_negative_indents c9elements c9line "  "
      []).2.1.all (fun r => r.anchor != c9ip.idx) = true := by
  have h := negative_indents_skip_protected c9elements c9line "  " [] c9ip
    (by decide) (by decide) (by decide) (Or.inl (by decide))
  exact List.all_eq_true.mpr (fun r hr => by simpa using h r hr)

/-- Witness for C3 at a concrete line: one point with a negative trough, two
untaken indents of which only one survives the pruning, one forced indent. -/
theorem desired_indent_units_spec_witness :
    c3line.desired_indent_units [5] =
      c3line.initial_indent_balance
      - (c3p0.untaken_indents.filter
          (fun i => i ≤ c3p0.initial_indent_balance + c3p0.indent_trough)).length
      + ([5] : List Int).length :=
  desired_indent_units_spec c3line [5] c3p0 [] rfl (by decide) (by decide)

/-- Reading the references of a list object only depends on the heap cell at
the reference. -/
theorem readListRefs_congr (h1 h2 : Heap) (r : Nat) (he : h1[r]? = h2[r]?) :
    readListRefs h1 r = readListRefs h2 r := by
  unfold readListRefs
  rw [List.getD_eq_getElem?_getD, List.getD_eq_getElem?_getD, he]

/-- Reading an element object only depends on the heap cell at the
reference. -/
theorem readObj_congr (h1 h2 : Heap) (r : Nat) (he : h1[r]? = h2[r]?) :
    readObj h1 r = readObj h2 r := by
  unfold readObj
  rw [List.getD_eq_getElem?_getD, List.getD_eq_getElem?_getD, he]

/-- One buffer edit allocates a fresh cell and writes a slot of the buffer
object only: every cell other than the buffer cell is untouched. -/
theorem applyEdit_frame (bufRef : Nat) (h1 : Heap) (e : Nat × RElem) (i : Nat)
    (hi : i < h1.length) (hibr : i ≠ bufRef) :
    (applyEdit bufRef h1 e)[i]? = h1[i]? := by
  unfold applyEdit writeListSlot allocCell
  dsimp only
  rw [List.getElem?_set_ne (Ne.symm hibr), List.getElem?_append_left hi]

/-- Replaying any sequence of buffer edits leaves every pre-existing cell
other than the buffer cell unchanged. -/
theorem foldl_applyEdit_frame (bufRef : Nat) :
    ∀ (edits : List (Nat × RElem)) (h1 : Heap) (i : Nat),
      i < h1.length → i ≠ bufRef →
      (edits.foldl (applyEdit bufRef) h1)[i]? = h1[i]? := by
  intro edits
  induction edits with
  | nil => intro h1 i _ _; rfl
  | cons e rest ih =>
    intro h1 i hi hibr
    rw [List.foldl_cons]
    have hlen2 : (applyEdit bufRef h1 e).length = h1.length + 1 := by
      unfold applyEdit writeListSlot allocCell
      dsimp only
      rw [List.length_set, List.length_append]
      rfl
    rw [ih (applyEdit bufRef h1 e) i (by omega) hibr]
    exact applyEdit_frame bufRef h1 e i hi hibr

/-- C10: `lint_indent_points` never mutates its input element sequence. In
the heap model, running the linter on the list object at `elemsRef` (a valid
reference) preserves every pre-existing heap cell; in particular the input
list object keeps its exact reference contents, and — whenever its references
are valid — it still denotes the same element sequence afterwards. All
mutation happens on the freshly allocated working copy `elem_buffer`. -/
theorem lint_indent_points_no_input_mutation (h : Heap) (elemsRef : Nat)
    (si : String) (skips : List String) (hr : elemsRef < h.length) :
    (∀ i, i < h.length →
      (lint_indent_points_imp h elemsRef si skips).1[i]? = h[i]?) ∧
    readListRefs (lint_indent_points_imp h elemsRef si skips).1 elemsRef =
      readListRefs h elemsRef ∧
    ((∀ r ∈ readListRefs h elemsRef, r < h.length) →
      readElements (lint_indent_points_imp h elemsRef si skips).1 elemsRef =
        readElements h elemsRef) := by
  rcases hres : lint_indent_points (readElements h elemsRef) si skips with _ | res
  · have himp : lint_indent_points_imp h elemsRef si skips = (h, none) := by
      unfold lint_indent_points_imp
      dsimp only
      rw [hres]
    rw [himp]
    refine ⟨fun i _ => rfl, rfl, fun _ => rfl⟩
  · obtain ⟨buf, results, edits⟩ := res
    have himp : lint_indent_points_imp h elemsRef si skips =
        (edits.foldl (applyEdit h.length)
          (h ++ [Cell.list (readListRefs h elemsRef)]),
         some (h.length, results)) := by
      unfold lint_indent_points_imp
      dsimp only
      rw [hres]
      rfl
    rw [himp]
    have hframe : ∀ i, i < h.length →
        (edits.foldl (applyEdit h.length)
          (h ++ [Cell.list (readListRefs h elemsRef)]))[i]? = h[i]? := by
      intro i hi
      have hi2 : i < (h ++ [Cell.list (readListRefs h elemsRef)]).length := by
        rw [List.length_append]
        omega
      rw [foldl_applyEdit_frame h.length edits _ i hi2 (by omega)]
      exact List.getElem?_append_left hi
    have hrefs : readListRefs (edits.foldl (applyEdit h.length)
        (h ++ [Cell.list (readListRefs h elemsRef)])) elemsRef =
        readListRefs h elemsRef :=
      readListRefs_congr _ h elemsRef (hframe elemsRef hr)
    refine ⟨hframe, hrefs, fun hall => ?_⟩
    unfold readElements
    rw [hrefs]
    refine List.map_congr_left ?_
    intro r hrr
    exact readObj_congr _ h r (hframe r (hall r hrr))

/-- Witness for C10 at a concrete heap: the linter run leaves every
pre-existing cell, the input list object, and the denoted element sequence
unchanged. -/
theorem lint_indent_points_no_input_mutation_witness :
    1 < c10heap.length ∧
    ((∀ i, i < c10heap.length →
      (lint_indent_points_imp c10heap 1 "  " []).1[i]? = c10heap[i]?) ∧
    readListRefs (lint_indent_points_imp c10heap 1 "  " []).1 1 =
      readListRefs c10heap 1 ∧
    ((∀ r ∈ readListRefs c10heap 1, r < c10heap.length) →
      readElements (lint_indent_points_imp c10heap 1 "  " []).1 1 =
        readElements c10heap 1)) :=
  ⟨by decide, lint_indent_points_no_input_mutation c10heap 1 "  " [] (by decide)⟩

end SF

